import Mathlib

/-!
pptracker: configuration store, blob detector and start-up

A shallow embedding of `pptracker.go` (package `main`).

* `float64` values are embedded in `ℚ`: every finite `float64` is a rational, and the program
  only compares such values, truncates them to `int` and converts small integers to them, all
  of which are exact.  `NaN` and the infinities never arise (the values come from the defaults,
  from a JSON number literal or from a trackbar position).
* The two `strconv` routines that depend on the binary representation, the shortest formatting
  used by `encoding/json` and `ParseFloat`, are parameters `formatFloat` and `parseFloat`.
* The file system is an explicit state; file contents are sequences of characters.
* An `IplImage` is its width, its height and its pixel function.  The OpenCV primitives are
  modelled by their documented behaviour; the colour conversion is a per-pixel parameter.
* The raster moments of an 8-bit mask are sums of integers, held exactly by a `float64`, so they
  are natural numbers here and `int(m10 / m00)` is the floor of the quotient.
-/

namespace PPTracker

/-! ## Data model -/

/-- Go `type Params struct`: the six threshold bounds. -/
structure Params where
  LowH : ℚ
  LowS : ℚ
  LowV : ℚ
  HighH : ℚ
  HighS : ℚ
  HighV : ℚ
  deriving DecidableEq

/-- The six exported fields of `Params`, in declaration order. -/
inductive Field where
  | LowH | LowS | LowV | HighH | HighS | HighV
  deriving DecidableEq, Repr

/-- Go name of a field, which is also its JSON key. -/
def Field.name : Field → List Char
  | .LowH => "LowH".toList
  | .LowS => "LowS".toList
  | .LowV => "LowV".toList
  | .HighH => "HighH".toList
  | .HighS => "HighS".toList
  | .HighV => "HighV".toList

/-- All fields in declaration order (the order `encoding/json` visits them). -/
def Field.all : List Field := [.LowH, .LowS, .LowV, .HighH, .HighS, .HighV]

/-- Read one field. -/
def Params.get (p : Params) : Field → ℚ
  | .LowH => p.LowH
  | .LowS => p.LowS
  | .LowV => p.LowV
  | .HighH => p.HighH
  | .HighS => p.HighS
  | .HighV => p.HighV

/-- Assign one field (`reflect.Value.SetFloat` on that field). -/
def Params.set (p : Params) (f : Field) (x : ℚ) : Params :=
  match f with
  | .LowH => { p with LowH := x }
  | .LowS => { p with LowS := x }
  | .LowV => { p with LowV := x }
  | .HighH => { p with HighH := x }
  | .HighS => { p with HighS := x }
  | .HighV => { p with HighV := x }

/-- The composite literal `Params{0, 0, 0, 179, 255, 255}` of `loadParams`. -/
def defaultParams : Params := ⟨0, 0, 0, 179, 255, 255⟩

/-- Go `error` values the program can see. -/
inductive Error where
  /-- Failure of `os.Open`. -/
  | openFailed
  /-- Failure of `os.Create`. -/
  | createFailed
  /-- Failure of `(*os.File).Write`. -/
  | writeFailed
  /-- Failure of `json.MarshalIndent`. -/
  | marshal
  /-- Failure of `Decode` to read a complete JSON value: `io.EOF`, `io.ErrUnexpectedEOF` or a
  `*json.SyntaxError`. -/
  | jsonRead
  /-- Failure of `Decode` to store a value that does not fit the target:
  `*json.UnmarshalTypeError`. -/
  | jsonType
  /-- A value built by `fmt.Errorf`. -/
  | formatted
  deriving DecidableEq, Repr

/-! ## File system -/

/-- State of the file system as far as the program observes it. -/
structure FileSystem where
  /-- Content of the file `os.Open` would open at a path, `none` when `os.Open` fails. -/
  files : String → Option (List Char)
  /-- Whether `os.Create` succeeds at a path. -/
  creatable : String → Bool
  /-- Whether a `Write` to the file created at a path succeeds. -/
  writable : String → Bool

/-- Go `os.Open`. -/
def osOpen (fs : FileSystem) (path : String) : Except Error (List Char) :=
  match fs.files path with
  | some content => .ok content
  | none => .error .openFailed

/-- Go `os.Create`: on success the file exists and is empty. -/
def osCreate (fs : FileSystem) (path : String) : Except Error FileSystem :=
  if fs.creatable path then
    .ok { fs with files := fun p => if p = path then some [] else fs.files p }
  else .error .createFailed

/-- Go `(*os.File).Write` on the file just created at `path`: on success the file holds the
bytes, on failure it is left as it was and an error is returned. -/
def fileWrite (fs : FileSystem) (path : String) (bytes : List Char) :
    Option Error × FileSystem :=
  if fs.writable path then
    (none, { fs with files := fun p => if p = path then some bytes else fs.files p })
  else (some .writeFailed, fs)

/-! ## `encoding/json`: reading one value -/

/-- A JSON value as the decoder sees it; a number keeps its literal text. -/
inductive JSON where
  | null : JSON
  | bool (b : Bool) : JSON
  | num (lit : List Char) : JSON
  | str (s : List Char) : JSON
  | arr (xs : List JSON) : JSON
  | obj (kvs : List (List Char × JSON)) : JSON

/-- Scanner `isSpace`. -/
def isSpace (c : Char) : Bool :=
  c = ' ' || c = '\t' || c = '\r' || c = '\n'

/-- Drop leading white space. -/
def skipSpace : List Char → List Char
  | [] => []
  | c :: cs => if isSpace c then skipSpace cs else c :: cs

/-- Decimal digit test. -/
def isDigit (c : Char) : Bool := '0' ≤ c && c ≤ '9'

/-- States of the scanner inside a number literal (`stateNeg`, `state0`, `state1`, `stateDot`,
`stateDot0`, `stateE`, `stateESign`, `stateE0`), with `start` for the first character. -/
inductive NumState where
  | start | neg | zero | int | dot | frac | e | esign | exp
  deriving DecidableEq, Repr

/-- One scanner step inside a number; `none` when the character does not continue it. -/
def numStep : NumState → Char → Option NumState
  | .start, c => if c = '-' then some .neg else if c = '0' then some .zero
      else if isDigit c then some .int else none
  | .neg, c => if c = '0' then some .zero else if isDigit c then some .int else none
  | .zero, c => if c = '.' then some .dot else if c = 'e' || c = 'E' then some .e else none
  | .int, c => if isDigit c then some .int else if c = '.' then some .dot
      else if c = 'e' || c = 'E' then some .e else none
  | .dot, c => if isDigit c then some .frac else none
  | .frac, c => if isDigit c then some .frac else if c = 'e' || c = 'E' then some .e else none
  | .e, c => if c = '+' || c = '-' then some .esign else if isDigit c then some .exp else none
  | .esign, c => if isDigit c then some .exp else none
  | .exp, c => if isDigit c then some .exp else none

/-- States in which a number literal may end. -/
def numAccepting : NumState → Bool
  | .zero | .int | .frac | .exp => true
  | _ => false

/-- Scan a number literal from state `st`: the literal and the unread rest. -/
def scanNumber (st : NumState) : List Char → Option (List Char × List Char)
  | [] => if numAccepting st then some ([], []) else none
  | c :: cs =>
    match numStep st c with
    | some st' =>
      match scanNumber st' cs with
      | some (lit, rest) => some (c :: lit, rest)
      | none => none
    | none => if numAccepting st then some ([], c :: cs) else none

/-- Value of a hexadecimal digit. -/
def hexVal (c : Char) : Option Nat :=
  if '0' ≤ c ∧ c ≤ '9' then some (c.toNat - '0'.toNat)
  else if 'a' ≤ c ∧ c ≤ 'f' then some (c.toNat - 'a'.toNat + 10)
  else if 'A' ≤ c ∧ c ≤ 'F' then some (c.toNat - 'A'.toNat + 10)
  else none

/-- Go `getu4` on the four digits that follow a backslash and `u`. -/
def hex4 (a b c d : Char) : Option Nat :=
  match hexVal a, hexVal b, hexVal c, hexVal d with
  | some x, some y, some z, some w => some (((x * 16 + y) * 16 + z) * 16 + w)
  | _, _, _, _ => none

/-- Go `utf16.IsSurrogate`. -/
def isSurrogate (n : Nat) : Bool := 0xD800 ≤ n && n < 0xE000

/-- Go `utf16.DecodeRune`: the code point of a valid surrogate pair. -/
def decodeSurrogates (hi lo : Nat) : Option Nat :=
  if 0xD800 ≤ hi ∧ hi < 0xDC00 ∧ 0xDC00 ≤ lo ∧ lo < 0xE000 then
    some ((hi - 0xD800) * 0x400 + (lo - 0xDC00) + 0x10000)
  else none

/-- The replacement character U+FFFD, emitted for a high surrogate escape left unpaired. -/
def flushSurrogate (pending : Option Nat) : List Char :=
  match pending with
  | some _ => [Char.ofNat 0xFFFD]
  | none => []

/-- Character of a one-letter escape. -/
def simpleEscape (e : Char) : Option Char :=
  if e = '"' then some '"' else if e = '\\' then some '\\' else if e = '/' then some '/'
  else if e = 'b' then some (Char.ofNat 8) else if e = 'f' then some (Char.ofNat 12)
  else if e = 'n' then some '\n' else if e = 'r' then some '\r'
  else if e = 't' then some '\t' else none

/-- Prepend decoded characters to the text of a scanned string. -/
def prepend (pre : List Char) : Option (List Char × List Char) → Option (List Char × List Char)
  | some (s, r) => some (pre ++ s, r)
  | none => none

/-- Scan a string literal after its opening quote and unquote it: the decoded text and the rest
after the closing quote.  Control characters and malformed escapes are syntax errors.  A
surrogate escape is held in `pending` until the next item shows whether it completes a pair;
the escape is decoded to U+FFFD when it does not. -/
def parseString (pending : Option Nat) : List Char → Option (List Char × List Char)
  | [] => none
  | c :: rest =>
    if c = '"' then some (flushSurrogate pending, rest)
    else if c = '\\' then
      match rest with
      | [] => none
      | e :: rest1 =>
        if e = 'u' then
          match rest1 with
          | a :: b :: c' :: d :: rest2 =>
            match hex4 a b c' d with
            | none => none
            | some rr =>
              match pending.bind (fun hi => decodeSurrogates hi rr) with
              | some cp => prepend [Char.ofNat cp] (parseString none rest2)
              | none =>
                if isSurrogate rr then
                  prepend (flushSurrogate pending) (parseString (some rr) rest2)
                else
                  prepend (flushSurrogate pending ++ [Char.ofNat rr]) (parseString none rest2)
          | _ => none
        else
          match simpleEscape e with
          | none => none
          | some ch => prepend (flushSurrogate pending ++ [ch]) (parseString none rest1)
    else if c.toNat < 0x20 then none
    else prepend (flushSurrogate pending ++ [c]) (parseString none rest)

mutual
/-- Read one JSON value (after optional white space): the value and the unread rest.  What
follows the value is not looked at.  The fuel bounds the number of values and members read. -/
def parseValue : Nat → List Char → Option (JSON × List Char)
  | 0, _ => none
  | fuel + 1, cs =>
    match skipSpace cs with
    | [] => none
    | c :: rest =>
      if c = '{' then
        match skipSpace rest with
        | '}' :: rest' => some (JSON.obj [], rest')
        | _ => parseMembers fuel rest []
      else if c = '[' then
        match skipSpace rest with
        | ']' :: rest' => some (JSON.arr [], rest')
        | _ => parseElements fuel rest []
      else if c = '"' then
        match parseString none rest with
        | some (s, rest') => some (JSON.str s, rest')
        | none => none
      else if c = 't' then
        match rest with
        | 'r' :: 'u' :: 'e' :: rest' => some (JSON.bool true, rest')
        | _ => none
      else if c = 'f' then
        match rest with
        | 'a' :: 'l' :: 's' :: 'e' :: rest' => some (JSON.bool false, rest')
        | _ => none
      else if c = 'n' then
        match rest with
        | 'u' :: 'l' :: 'l' :: rest' => some (JSON.null, rest')
        | _ => none
      else
        match scanNumber .start (c :: rest) with
        | some (lit, rest') => some (JSON.num lit, rest')
        | none => none
/-- Read the members of an object from a key on, up to and including the closing brace. -/
def parseMembers : Nat → List Char → List (List Char × JSON) → Option (JSON × List Char)
  | 0, _, _ => none
  | fuel + 1, cs, acc =>
    match skipSpace cs with
    | '"' :: cs1 =>
      match parseString none cs1 with
      | none => none
      | some (key, cs2) =>
        match skipSpace cs2 with
        | ':' :: cs3 =>
          match parseValue fuel cs3 with
          | none => none
          | some (v, cs4) =>
            match skipSpace cs4 with
            | ',' :: cs5 => parseMembers fuel cs5 (acc ++ [(key, v)])
            | '}' :: cs5 => some (JSON.obj (acc ++ [(key, v)]), cs5)
            | _ => none
        | _ => none
    | _ => none
/-- Read the elements of an array from a value on, up to and including the closing bracket. -/
def parseElements : Nat → List Char → List JSON → Option (JSON × List Char)
  | 0, _, _ => none
  | fuel + 1, cs, acc =>
    match parseValue fuel cs with
    | none => none
    | some (v, cs1) =>
      match skipSpace cs1 with
      | ',' :: cs2 => parseElements fuel cs2 (acc ++ [v])
      | ']' :: cs2 => some (JSON.arr (acc ++ [v]), cs2)
      | _ => none
end

/-- Go `(*Decoder).readValue` on the whole stream: the next JSON value of the content.  The
length of the content, plus one, is fuel enough (`readValue_of_fuel`). -/
def readValue (content : List Char) : Option (JSON × List Char) :=
  parseValue (content.length + 1) content

/-! ## `encoding/json`: storing into `Params` -/

/-- Case folding of one character as far as it can reach an ASCII letter: lower case to upper
case, and the two non-ASCII characters that fold to `S` and `K`. -/
def foldRune (c : Char) : Char :=
  if 'a' ≤ c ∧ c ≤ 'z' then Char.ofNat (c.toNat - 32)
  else if c = Char.ofNat 0x17F then 'S'
  else if c = Char.ofNat 0x212A then 'K'
  else c

/-- Go `foldName`. -/
def foldName (s : List Char) : List Char := s.map foldRune

/-- Field selected by an object key: the field of exactly that name, else the field whose name
matches under case folding, else none (the member is skipped). -/
def fieldOf (key : List Char) : Option Field :=
  match Field.all.find? (fun f => f.name = key) with
  | some f => some f
  | none => Field.all.find? (fun f => foldName f.name = foldName key)

/-- Decoder state while an object is stored: the struct and the first saved error. -/
abbrev DecodeState := Params × Option Error

/-- Keep the first saved error (`saveError`). -/
def saveError (saved : Option Error) (err : Error) : Option Error :=
  match saved with
  | some e => some e
  | none => some err

/-- Store one object member.  A member with no field is skipped; a number is parsed and
assigned; `null` leaves the field unchanged; any other value, and a number out of range, saves
a type error and leaves the field unchanged. -/
def storeMember (parseFloat : List Char → Option ℚ) (st : DecodeState)
    (kv : List Char × JSON) : DecodeState :=
  match fieldOf kv.1 with
  | none => st
  | some f =>
    match kv.2 with
    | .num lit =>
      match parseFloat lit with
      | some x => (st.1.set f x, st.2)
      | none => (st.1, saveError st.2 .jsonType)
    | .null => st
    | _ => (st.1, saveError st.2 .jsonType)

/-- Go `(*decodeState).unmarshal` into a `*Params`: an object is stored member by member, in
order; `null` changes nothing; any other value is a type error. -/
def unmarshal (parseFloat : List Char → Option ℚ) (v : JSON) (params : Params) :
    Except Error Params :=
  match v with
  | .obj kvs =>
    match kvs.foldl (storeMember parseFloat) (params, none) with
    | (p, none) => .ok p
    | (_, some err) => .error err
  | .null => .ok params
  | _ => .error .jsonType

/-- Go `json.NewDecoder(file).Decode(&params)`: read the next value of the stream, then store
it. -/
def decode (parseFloat : List Char → Option ℚ) (content : List Char) (params : Params) :
    Except Error Params :=
  match readValue content with
  | none => .error .jsonRead
  | some (v, _) => unmarshal parseFloat v params

/-! ## `encoding/json`: writing `Params` -/

/-- One indented member line, `    "Name": value`. -/
def marshalMember (formatFloat : ℚ → List Char) (p : Params) (f : Field) : List Char :=
  "    \"".toList ++ f.name ++ "\": ".toList ++ formatFloat (p.get f)

/-- Go `json.MarshalIndent(params, "", "    ")`.  It fails only on `NaN` and the infinities,
which have no counterpart here. -/
def marshalIndent (formatFloat : ℚ → List Char) (p : Params) : Except Error (List Char) :=
  .ok ("\x7b\n".toList
    ++ marshalMember formatFloat p .LowH ++ ",\n".toList
    ++ marshalMember formatFloat p .LowS ++ ",\n".toList
    ++ marshalMember formatFloat p .LowV ++ ",\n".toList
    ++ marshalMember formatFloat p .HighH ++ ",\n".toList
    ++ marshalMember formatFloat p .HighS ++ ",\n".toList
    ++ marshalMember formatFloat p .HighV ++ "\n\x7d".toList)

/-! ## Configuration store -/

/-- Go `loadParams`: the `*Params` result (`none` for `nil`) and the error (`none` for `nil`). -/
def loadParams (parseFloat : List Char → Option ℚ) (fs : FileSystem) (path : String) :
    Option Params × Option Error :=
  let params : Params := ⟨0, 0, 0, 179, 255, 255⟩
  match osOpen fs path with
  | .error _ => (some params, none)
  | .ok cfgFile =>
    match decode parseFloat cfgFile params with
    | .error err => (none, some err)
    | .ok params' => (some params', none)

/-- Go `writeParams`: the returned error (`none` for `nil`) and the file system afterwards.  The
result of `cfgFile.Write` is discarded. -/
def writeParams (formatFloat : ℚ → List Char) (fs : FileSystem) (path : String)
    (params : Params) : Option Error × FileSystem :=
  match osCreate fs path with
  | .error err => (some err, fs)
  | .ok fs1 =>
    match marshalIndent formatFloat params with
    | .error err => (some err, fs1)
    | .ok encoded =>
      let written := fileWrite fs1 path encoded
      (none, written.2)

/-! ## Start-up of `main` -/

/-- Go conversion `int(x)` of a `float64`: truncation toward zero. -/
def toInt (x : ℚ) : Int := x.num.tdiv x.den

/-- A trackbar as created by `CreateTrackbar(name, value, count, callback)`. -/
structure Trackbar where
  name : String
  value : Int
  count : Int
  deriving DecidableEq, Repr

/-- How the parameter-window set-up of `main` ends. -/
inductive Setup where
  /-- The six trackbars were created, with these initial positions. -/
  | trackbars (bars : List Trackbar)
  /-- A run-time panic: `params` is `nil` when `params.LowH` is evaluated. -/
  | nilDereference
  deriving DecidableEq, Repr

/-- Go `fmt.Errorf`: formats and returns an `error` value; nothing is written anywhere. -/
def fmtErrorf (_format : String) (_arg : Error) : Error := .formatted

/-- The parameter-window set-up of `main` (from `loadParams("config.json")` to the sixth
`CreateTrackbar`): the lines written to standard output and how the set-up ends. -/
def mainSetup (parseFloat : List Char → Option ℚ) (fs : FileSystem) : List String × Setup :=
  let (params, err) := loadParams parseFloat fs "config.json"
  let stdout : List String :=
    match err with
    | some e => let _ := fmtErrorf "Error loading config: %s\n" e; []
    | none => []
  match params with
  | none => (stdout, .nilDereference)
  | some p =>
    (stdout, .trackbars
      [⟨"LowH", toInt p.LowH, 179⟩, ⟨"LowS", toInt p.LowS, 255⟩, ⟨"LowV", toInt p.LowV, 255⟩,
       ⟨"HighH", toInt p.HighH, 179⟩, ⟨"HighS", toInt p.HighS, 255⟩,
       ⟨"HighV", toInt p.HighV, 255⟩])

/-! ## Integer-valued instance of the `strconv` parameters -/

/-- Go `strconv.ParseFloat` restricted to literals that are plain digit strings. -/
def parseDigits (lit : List Char) : Option ℚ :=
  if lit ≠ [] ∧ lit.all isDigit then
    some ((lit.foldl (fun n c => 10 * n + (c.toNat - '0'.toNat)) 0 : Nat) : ℚ)
  else none

/-- The shortest formatting of `encoding/json` restricted to non-negative integers. -/
def formatDigits (x : ℚ) : List Char := (Nat.repr x.num.toNat).toList

/-! ## Images and the OpenCV primitives -/

/-- An `IplImage`: `pix x y` is the pixel in column `x` of row `y`, meaningful for
`x < width` and `y < height`. -/
structure Image (α : Type) where
  width : Nat
  height : Nat
  pix : Nat → Nat → α

/-- An 8-bit three-channel pixel of the camera frame. -/
structure BGR where
  b : Nat
  g : Nat
  r : Nat
  deriving DecidableEq, Repr

/-- An 8-bit three-channel pixel after `CV_BGR2HSV`. -/
structure HSV where
  h : Nat
  s : Nat
  v : Nat
  deriving DecidableEq, Repr

/-- OpenCV `CvScalar` as built by `NewScalar`. -/
structure Scalar where
  v0 : ℚ
  v1 : ℚ
  v2 : ℚ
  v3 : ℚ

/-- OpenCV `cvCvtColor` with `CV_BGR2HSV`: the same dimensions, each pixel converted on its
own by `conv`. -/
def cvtColor (conv : BGR → HSV) (src : Image BGR) : Image HSV :=
  ⟨src.width, src.height, fun x y => conv (src.pix x y)⟩

/-- Per-pixel test of `cvInRangeS` as documented: `lower ≤ src ≤ upper` on every channel, both
bounds inclusive. -/
def inBounds (p : HSV) (lower upper : Scalar) : Bool :=
  decide (lower.v0 ≤ (p.h : ℚ) ∧ (p.h : ℚ) ≤ upper.v0
    ∧ lower.v1 ≤ (p.s : ℚ) ∧ (p.s : ℚ) ≤ upper.v1
    ∧ lower.v2 ≤ (p.v : ℚ) ∧ (p.v : ℚ) ≤ upper.v2)

/-- OpenCV `cvInRangeS`: the single-channel mask, 255 where the pixel is within the bounds and
0 elsewhere. -/
def inRange (src : Image HSV) (lower upper : Scalar) : Image Nat :=
  ⟨src.width, src.height, fun x y => if inBounds (src.pix x y) lower upper then 255 else 0⟩

/-- An `IplConvKernel`: its anchor and the cells that are set, as (column, row). -/
structure StructuringElement where
  anchorX : Nat
  anchorY : Nat
  cells : List (Nat × Nat)

/-- OpenCV `CreateStructuringElement(5, 5, 2, 2, MORPH_ELLIPSE, nil)`: the 5×5 ellipse, whose
first and last rows hold the middle cell only. -/
def ellipse5x5 : StructuringElement :=
  ⟨2, 2,
    [(2, 0),
     (0, 1), (1, 1), (2, 1), (3, 1), (4, 1),
     (0, 2), (1, 2), (2, 2), (3, 2), (4, 2),
     (0, 3), (1, 3), (2, 3), (3, 3), (4, 3),
     (2, 4)]⟩

/-- Pixels under the structuring element placed with its anchor on `(x, y)`; a cell that falls
outside the image reads the nearest edge pixel (the border is replicated). -/
def neighbourhood (src : Image Nat) (el : StructuringElement) (x y : Nat) : List Nat :=
  el.cells.map fun cell =>
    src.pix (min (x + cell.1 - el.anchorX) (src.width - 1))
      (min (y + cell.2 - el.anchorY) (src.height - 1))

/-- OpenCV `cvErode`, one iteration on an 8-bit image: the minimum under the element. -/
def erode (src : Image Nat) (el : StructuringElement) : Image Nat :=
  ⟨src.width, src.height, fun x y => (neighbourhood src el x y).foldl min 255⟩

/-- OpenCV `cvDilate`, one iteration on an 8-bit image: the maximum under the element. -/
def dilate (src : Image Nat) (el : StructuringElement) : Image Nat :=
  ⟨src.width, src.height, fun x y => (neighbourhood src el x y).foldl max 0⟩

/-- Sum of `f x y` over the pixels of a `width` by `height` raster. -/
def rasterSum (width height : Nat) (f : Nat → Nat → Nat) : Nat :=
  ((List.range height).map fun y => ((List.range width).map fun x => f x y).sum).sum

/-- The spatial moments read by `FindBall`. -/
structure Moments where
  m00 : Nat
  m10 : Nat
  m01 : Nat
  deriving DecidableEq, Repr

/-- OpenCV `cvMoments(img, binary = 0)` of a single-channel image: `m00` is the sum of the pixel
values, `m10` and `m01` weight each value by its column and by its row. -/
def moments (img : Image Nat) : Moments :=
  ⟨rasterSum img.width img.height fun x y => img.pix x y,
   rasterSum img.width img.height fun x y => x * img.pix x y,
   rasterSum img.width img.height fun x y => y * img.pix x y⟩

/-! ## Blob detector -/

/-- Go `type BallResult struct`. -/
structure BallResult where
  Found : Bool
  X : Int
  Y : Int
  ProcessedImage : Image Nat

/-- The mask `FindBall` takes the moments of: conversion to HSV, threshold, then erode, dilate,
dilate, erode with the 5×5 ellipse. -/
def thresholdedMask (conv : BGR → HSV) (img : Image BGR) (params : Params) : Image Nat :=
  let imgHSV := cvtColor conv img
  let imgThresholded := inRange imgHSV
    ⟨params.LowH, params.LowS, params.LowV, 0⟩ ⟨params.HighH, params.HighS, params.HighV, 0⟩
  let imgThresholded := erode imgThresholded ellipse5x5
  let imgThresholded := dilate imgThresholded ellipse5x5
  let imgThresholded := dilate imgThresholded ellipse5x5
  erode imgThresholded ellipse5x5

/-- Go `FindBall` (the window argument is unused): the result and the error, always `nil`. -/
def FindBall (conv : BGR → HSV) (img : Image BGR) (params : Params) :
    BallResult × Option Error :=
  let imgThresholded := thresholdedMask conv img params
  let m := moments imgThresholded
  if m.m00 > 10000 then
    let x : Int := ((m.m10 / m.m00 : Nat) : Int)
    let y : Int := ((m.m01 / m.m00 : Nat) : Int)
    (⟨true, x, y, imgThresholded⟩, none)
  else
    (⟨false, 0, 0, imgThresholded⟩, none)

/-- A mask that is zero except on the rectangle with top-left corner `(x0, y0)`, width `w` and
height `h`, where it is 255. -/
def rectMask (width height x0 y0 w h : Nat) : Image Nat :=
  ⟨width, height, fun x y =>
    if x0 ≤ x ∧ x < x0 + w ∧ y0 ≤ y ∧ y < y0 + h then 255 else 0⟩

/-- A frame of one colour. -/
def uniformFrame (width height : Nat) (colour : BGR) : Image BGR :=
  ⟨width, height, fun _ _ => colour⟩

/-- A stand-in colour conversion for concrete evaluations: hue folded into `0..179`. -/
def sampleConv (p : BGR) : HSV := ⟨p.b % 180, p.g % 256, p.r % 256⟩

/-- The widest bounds, which are also the defaults. -/
def widestParams : Params := ⟨0, 0, 0, 179, 255, 255⟩

/-! ## JSON syntax -/

/-- White space only. -/
def AllSpace (w : List Char) : Prop := ∀ c ∈ w, isSpace c = true

/-- The text between the quotes of a JSON string literal: characters other than the quote, the
backslash and the control characters, the one-letter escapes, and `\u` with four hexadecimal
digits. -/
inductive StringBody : List Char → Prop where
  | nil : StringBody []
  | char (c : Char) (t : List Char) : c ≠ '"' → c ≠ '\\' → ¬ c.toNat < 0x20 →
      StringBody t → StringBody (c :: t)
  | escape (e : Char) (t : List Char) : (simpleEscape e).isSome = true →
      StringBody t → StringBody ('\\' :: e :: t)
  | unicode (a b c d : Char) (t : List Char) : (hex4 a b c d).isSome = true →
      StringBody t → StringBody ('\\' :: 'u' :: a :: b :: c :: d :: t)

mutual
/-- The texts that are one JSON value, without white space around it.  A number is a literal
the number automaton accepts whole. -/
inductive JSONValue : List Char → Prop where
  | null : JSONValue ['n', 'u', 'l', 'l']
  | true : JSONValue ['t', 'r', 'u', 'e']
  | false : JSONValue ['f', 'a', 'l', 's', 'e']
  | number (lit : List Char) : scanNumber .start lit = some (lit, []) → JSONValue lit
  | string (body : List Char) : StringBody body → JSONValue ('"' :: (body ++ ['"']))
  | emptyArray (w : List Char) : AllSpace w → JSONValue ('[' :: (w ++ [']']))
  | array (es : List Char) : JSONElements es → JSONValue ('[' :: (es ++ [']']))
  | emptyObject (w : List Char) : AllSpace w → JSONValue ('{' :: (w ++ ['}']))
  | object (ms : List Char) : JSONMembers ms → JSONValue ('{' :: (ms ++ ['}']))
/-- The text between the brackets of a non-empty array: values separated by commas, with
optional white space around each. -/
inductive JSONElements : List Char → Prop where
  | last (w1 v w2 : List Char) : AllSpace w1 → JSONValue v → AllSpace w2 →
      JSONElements (w1 ++ (v ++ w2))
  | more (w1 v w2 es : List Char) : AllSpace w1 → JSONValue v → AllSpace w2 →
      JSONElements es → JSONElements (w1 ++ (v ++ (w2 ++ ',' :: es)))
/-- The text between the braces of a non-empty object: `"key": value` members separated by
commas, with optional white space around each part. -/
inductive JSONMembers : List Char → Prop where
  | last (w1 k w2 w3 v w4 : List Char) : AllSpace w1 → StringBody k → AllSpace w2 →
      AllSpace w3 → JSONValue v → AllSpace w4 →
      JSONMembers (w1 ++ '"' :: (k ++ '"' :: (w2 ++ ':' :: (w3 ++ (v ++ w4)))))
  | more (w1 k w2 w3 v w4 ms : List Char) : AllSpace w1 → StringBody k → AllSpace w2 →
      AllSpace w3 → JSONValue v → AllSpace w4 → JSONMembers ms →
      JSONMembers (w1 ++ '"' :: (k ++ '"' :: (w2 ++ ':' :: (w3 ++ (v ++ (w4 ++ ',' :: ms))))))
end

/-- A JSON text: one value with optional white space around it, and nothing else. -/
def JSONText (content : List Char) : Prop :=
  ∃ w1 v w2, AllSpace w1 ∧ JSONValue v ∧ AllSpace w2 ∧ content = w1 ++ (v ++ w2)

/-- The content begins, after optional white space, with a JSON value. -/
def BeginsWithJSONValue (content : List Char) : Prop :=
  ∃ w v rest, AllSpace w ∧ JSONValue v ∧ content = w ++ (v ++ rest)

/-- Characters a JSON value can end in: the last letter of `null`, `true` and `false`, a
closing brace, bracket or quote, and a digit. -/
def endsValue (c : Char) : Bool :=
  c = 'l' || c = 'e' || c = '}' || c = ']' || c = '"' || isDigit c

/-- Characters a JSON value can start with: the first letter of `null`, `true` and `false`, an
opening brace, bracket or quote, and the first character of a number. -/
def startsValue (c : Char) : Bool :=
  (c = 'n' || c = 't' || c = 'f' || c = '{' || c = '[' || c = '"')
    || (numStep .start c).isSome

/-- Characters that continue no number literal in any state. -/
def endsNumber (c : Char) : Prop := ∀ st, numStep st c = none

/-! ## Concrete file systems -/

/-- A file system whose only file is `config.json`, holding `text`; every file can be created
and written. -/
def configFS (text : String) : FileSystem :=
  ⟨fun p => if p = "config.json" then some text.toList else none, fun _ => true, fun _ => true⟩

/-- A file system without files; every file can be created and written. -/
def emptyFS : FileSystem := ⟨fun _ => none, fun _ => true, fun _ => true⟩

/-- A full device: files can be created, and every write to them fails. -/
def fullDiskFS : FileSystem := ⟨fun _ => none, fun _ => true, fun _ => false⟩

/-! ## Raster sums -/

theorem sum_range_congr {n : Nat} {f g : Nat → Nat} (h : ∀ i < n, f i = g i) :
    ((List.range n).map f).sum = ((List.range n).map g).sum := by
  congr 1
  apply List.map_congr_left
  intro i hi
  exact h i (List.mem_range.mp hi)

theorem sum_range_const (n c : Nat) : ((List.range n).map fun _ => c).sum = n * c := by
  induction n with
  | zero => simp
  | succ n ih => rw [List.sum_range_succ, ih]; ring

theorem rasterSum_congr {w ht : Nat} {f g : Nat → Nat → Nat}
    (h : ∀ x < w, ∀ y < ht, f x y = g x y) : rasterSum w ht f = rasterSum w ht g := by
  unfold rasterSum
  apply sum_range_congr
  intro y hy
  apply sum_range_congr
  intro x hx
  exact h x hx y hy

theorem rasterSum_const (w ht c : Nat) : rasterSum w ht (fun _ _ => c) = ht * (w * c) := by
  unfold rasterSum
  simp only [sum_range_const]

theorem sum_range_mul_right (n : Nat) (f : Nat → Nat) (c : Nat) :
    ((List.range n).map fun i => f i * c).sum = ((List.range n).map f).sum * c := by
  induction n with
  | zero => simp
  | succ n ih => rw [List.sum_range_succ, List.sum_range_succ, ih]; ring

theorem rasterSum_mul (w ht : Nat) (a b : Nat → Nat) :
    rasterSum w ht (fun x y => a x * b y)
      = ((List.range w).map a).sum * ((List.range ht).map b).sum := by
  unfold rasterSum
  simp only [sum_range_mul_right]
  induction ht with
  | zero => simp
  | succ n ih => rw [List.sum_range_succ, List.sum_range_succ, ih]; ring

/-- A sum over `0..n-1` of a function supported on the window `a..a+w-1` inside the range. -/
theorem sum_range_window (g : Nat → Nat) (a w n : Nat) (hn : a + w ≤ n) :
    ((List.range n).map fun x => if a ≤ x ∧ x < a + w then g x else 0).sum
      = ((List.range w).map fun i => g (a + i)).sum := by
  have key : ∀ m, ((List.range m).map fun x => if a ≤ x ∧ x < a + w then g x else 0).sum
      = ((List.range (min w (m - a))).map fun i => g (a + i)).sum := by
    intro m
    induction m with
    | zero => simp
    | succ m ih =>
      rw [List.sum_range_succ, ih]
      by_cases h1 : a ≤ m
      · by_cases h2 : m < a + w
        · have e : min w (m + 1 - a) = min w (m - a) + 1 := by omega
          have e2 : a + min w (m - a) = m := by omega
          rw [e, List.sum_range_succ, e2, if_pos ⟨h1, h2⟩]
        · have e : min w (m + 1 - a) = min w (m - a) := by omega
          rw [e, if_neg (fun h => h2 h.2)]; rfl
      · have e : min w (m + 1 - a) = min w (m - a) := by omega
        rw [e, if_neg (fun h => h1 h.1)]; rfl
  rw [key n]
  have e : min w (n - a) = w := by omega
  rw [e]

/-- Twice the sum of `a, a+1, ..., a+w-1`, without subtraction. -/
theorem sum_range_arith (a w : Nat) :
    2 * ((List.range w).map fun i => a + i).sum + w = w * (2 * a + w) := by
  induction w with
  | zero => simp
  | succ w ih =>
    rw [List.sum_range_succ]
    have : 2 * (((List.range w).map fun i => a + i).sum + (a + w)) + (w + 1)
        = (2 * ((List.range w).map fun i => a + i).sum + w) + (2 * a + 2 * w + 1) := by ring
    rw [this, ih]; ring

/-- The floor of the mean of `a, a+1, ..., a+w-1`. -/
theorem mean_of_window (a w t : Nat) (hw : 1 ≤ w) (ht : 2 * t + w = w * (2 * a + w)) :
    t / w = a + (w - 1) / 2 := by
  apply Nat.div_eq_of_lt_le
  · have h2 : 2 * ((w - 1) / 2) ≤ w - 1 := by omega
    have h3 : w * (2 * ((w - 1) / 2)) ≤ w * (w - 1) := Nat.mul_le_mul_left w h2
    have h4 : w * (w - 1) + w = w * w := by
      obtain ⟨k, rfl⟩ : ∃ k, w = k + 1 := ⟨w - 1, by omega⟩
      simp; ring
    nlinarith
  · have h2 : w - 1 < 2 * ((w - 1) / 2) + 2 := by omega
    have h3 : w * (w - 1) < w * (2 * ((w - 1) / 2) + 2) :=
      Nat.mul_lt_mul_of_pos_left h2 (by omega)
    have h4 : w * (w - 1) + w = w * w := by
      obtain ⟨k, rfl⟩ : ∃ k, w = k + 1 := ⟨w - 1, by omega⟩
      simp; ring
    nlinarith

/-! ## Morphology on constant masks -/

/-- Where every pixel of the image is `c`, so is every pixel read under the structuring element,
clamped coordinates included. -/
theorem pix_clamped_const {src : Image Nat} {c : Nat}
    (h : ∀ x < src.width, ∀ y < src.height, src.pix x y = c)
    {x y : Nat} (hx : x < src.width) (hy : y < src.height) (a b : Nat) :
    src.pix (min a (src.width - 1)) (min b (src.height - 1)) = c :=
  h _ (by omega) _ (by omega)

theorem neighbourhood_const {src : Image Nat} {c : Nat}
    (h : ∀ x < src.width, ∀ y < src.height, src.pix x y = c)
    {x y : Nat} (hx : x < src.width) (hy : y < src.height) (el : StructuringElement) :
    ∀ v ∈ neighbourhood src el x y, v = c := by
  intro v hv
  unfold neighbourhood at hv
  obtain ⟨cell, _, rfl⟩ := List.mem_map.mp hv
  exact pix_clamped_const h hx hy _ _

theorem foldl_min_const (c : Nat) (l : List Nat) (hl : ∀ v ∈ l, v = c) (init : Nat) :
    l.foldl min init = if l = [] then init else min init c := by
  induction l generalizing init with
  | nil => simp
  | cons a t ih =>
    have ha : a = c := hl a (List.mem_cons_self _ _)
    have ht : ∀ v ∈ t, v = c := fun v hv => hl v (List.mem_cons_of_mem _ hv)
    rw [List.foldl_cons, ih ht, ha]
    by_cases e : t = []
    · simp [e]
    · simp [e, Nat.min_assoc]

theorem foldl_max_const (c : Nat) (l : List Nat) (hl : ∀ v ∈ l, v = c) (init : Nat) :
    l.foldl max init = if l = [] then init else max init c := by
  induction l generalizing init with
  | nil => simp
  | cons a t ih =>
    have ha : a = c := hl a (List.mem_cons_self _ _)
    have ht : ∀ v ∈ t, v = c := fun v hv => hl v (List.mem_cons_of_mem _ hv)
    rw [List.foldl_cons, ih ht, ha]
    by_cases e : t = []
    · simp [e]
    · simp [e, Nat.max_assoc]

theorem neighbourhood_ellipse_ne_nil (src : Image Nat) (x y : Nat) :
    neighbourhood src ellipse5x5 x y ≠ [] := by
  simp [neighbourhood, ellipse5x5]

theorem erode_width (src : Image Nat) (el : StructuringElement) :
    (erode src el).width = src.width := rfl

theorem erode_height (src : Image Nat) (el : StructuringElement) :
    (erode src el).height = src.height := rfl

theorem dilate_width (src : Image Nat) (el : StructuringElement) :
    (dilate src el).width = src.width := rfl

theorem dilate_height (src : Image Nat) (el : StructuringElement) :
    (dilate src el).height = src.height := rfl

theorem erode_const (src : Image Nat) {c : Nat} (w ht : Nat) (hc : c ≤ 255)
    (hw : src.width = w) (hh : src.height = ht)
    (h : ∀ x < w, ∀ y < ht, src.pix x y = c) :
    ∀ x < w, ∀ y < ht, (erode src ellipse5x5).pix x y = c := by
  subst hw hh
  intro x hx y hy
  have e : (erode src ellipse5x5).pix x y
      = (neighbourhood src ellipse5x5 x y).foldl min 255 := rfl
  rw [e, foldl_min_const c _ (neighbourhood_const h hx hy _),
    if_neg (neighbourhood_ellipse_ne_nil _ _ _)]
  exact Nat.min_eq_right hc

theorem dilate_const (src : Image Nat) {c : Nat} (w ht : Nat)
    (hw : src.width = w) (hh : src.height = ht)
    (h : ∀ x < w, ∀ y < ht, src.pix x y = c) :
    ∀ x < w, ∀ y < ht, (dilate src ellipse5x5).pix x y = c := by
  subst hw hh
  intro x hx y hy
  have e : (dilate src ellipse5x5).pix x y
      = (neighbourhood src ellipse5x5 x y).foldl max 0 := rfl
  rw [e, foldl_max_const c _ (neighbourhood_const h hx hy _),
    if_neg (neighbourhood_ellipse_ne_nil _ _ _)]
  exact Nat.max_eq_right (Nat.zero_le c)

/-- A thresholded image that is `c` everywhere stays `c` everywhere through the four passes. -/
theorem thresholdedMask_const (conv : BGR → HSV) (img : Image BGR) (params : Params) (c : Nat)
    (hc : c ≤ 255)
    (h : ∀ x < img.width, ∀ y < img.height,
      (inRange (cvtColor conv img) ⟨params.LowH, params.LowS, params.LowV, 0⟩
        ⟨params.HighH, params.HighS, params.HighV, 0⟩).pix x y = c) :
    ∀ x < img.width, ∀ y < img.height, (thresholdedMask conv img params).pix x y = c := by
  have h1 := erode_const _ img.width img.height hc rfl rfl h
  have h2 := dilate_const _ img.width img.height rfl rfl h1
  have h3 := dilate_const _ img.width img.height rfl rfl h2
  exact erode_const _ img.width img.height hc rfl rfl h3

theorem thresholdedMask_width (conv : BGR → HSV) (img : Image BGR) (params : Params) :
    (thresholdedMask conv img params).width = img.width := rfl

theorem thresholdedMask_height (conv : BGR → HSV) (img : Image BGR) (params : Params) :
    (thresholdedMask conv img params).height = img.height := rfl

/-- The zeroth moment of a mask that is `c` everywhere. -/
theorem m00_const (conv : BGR → HSV) (img : Image BGR) (params : Params) (c : Nat)
    (h : ∀ x < img.width, ∀ y < img.height, (thresholdedMask conv img params).pix x y = c) :
    (moments (thresholdedMask conv img params)).m00 = img.height * (img.width * c) := by
  show rasterSum (thresholdedMask conv img params).width
    (thresholdedMask conv img params).height _ = _
  rw [thresholdedMask_width, thresholdedMask_height, rasterSum_congr h, rasterSum_const]

/-- Under the widest bounds a frame of one colour, whose HSV value is within them, thresholds
to a mask that is 255 everywhere and stays so; its zeroth moment is 255 per pixel. -/
theorem m00_uniform_widest (conv : BGR → HSV) (img : Image BGR) (colour : BGR)
    (huni : ∀ x < img.width, ∀ y < img.height, img.pix x y = colour)
    (hh : (conv colour).h ≤ 179) (hs : (conv colour).s ≤ 255) (hv : (conv colour).v ≤ 255) :
    (moments (thresholdedMask conv img widestParams)).m00 = 255 * (img.width * img.height) := by
  have hon : ∀ x < img.width, ∀ y < img.height,
      (thresholdedMask conv img widestParams).pix x y = 255 := by
    apply thresholdedMask_const conv img widestParams 255 (by omega)
    intro x hx y hy
    simp only [inRange, cvtColor, inBounds, widestParams, huni x hx y hy]
    rw [if_pos]
    have h1 : ((conv colour).h : ℚ) ≤ 179 := by exact_mod_cast hh
    have h2 : ((conv colour).s : ℚ) ≤ 255 := by exact_mod_cast hs
    have h3 : ((conv colour).v : ℚ) ≤ 255 := by exact_mod_cast hv
    simp [h1, h2, h3]
  rw [m00_const conv img widestParams 255 hon]
  ring

theorem findBall_found_eq (conv : BGR → HSV) (img : Image BGR) (params : Params) :
    (FindBall conv img params).1.Found
      = decide (10000 < (moments (thresholdedMask conv img params)).m00) := by
  unfold FindBall
  by_cases h : (moments (thresholdedMask conv img params)).m00 > 10000
  · simp [h]
  · simp [h]

/-! ## Blob detector: the claims -/

/-- C1: for every frame and bounds, with `m00`, `m10`, `m01` the raster moments of the mask
computed inside `FindBall`, `Found` is true exactly when `m00 > 10000`; when `Found` is true,
`X = floor (m10 / m00)` and `Y = floor (m01 / m00)`; when `Found` is false, `X = 0` and `Y = 0`.
The mask returned is the one the moments were taken of, and the error is `nil`. -/
theorem findBall_found_iff_mass (conv : BGR → HSV) (img : Image BGR) (params : Params) :
    ((FindBall conv img params).1.Found = true
        ↔ 10000 < (moments (thresholdedMask conv img params)).m00)
    ∧ ((FindBall conv img params).1.Found = true →
        (FindBall conv img params).1.X
            = (((moments (thresholdedMask conv img params)).m10
                / (moments (thresholdedMask conv img params)).m00 : Nat) : Int)
        ∧ (FindBall conv img params).1.Y
            = (((moments (thresholdedMask conv img params)).m01
                / (moments (thresholdedMask conv img params)).m00 : Nat) : Int))
    ∧ ((FindBall conv img params).1.Found = false →
        (FindBall conv img params).1.X = 0 ∧ (FindBall conv img params).1.Y = 0)
    ∧ (FindBall conv img params).1.ProcessedImage = thresholdedMask conv img params
    ∧ (FindBall conv img params).2 = none := by
  unfold FindBall
  by_cases h : (moments (thresholdedMask conv img params)).m00 > 10000
  · simp [h]
  · simp [h]

/-- C2: when no pixel of the HSV-converted frame has all three channels within the inclusive
bounds, the mask has `m00 = 0` and `FindBall` returns `Found = false`, `X = 0`, `Y = 0`. -/
theorem findBall_nothing_in_range (conv : BGR → HSV) (img : Image BGR) (params : Params)
    (hout : ∀ x < img.width, ∀ y < img.height,
      ¬ (params.LowH ≤ ((conv (img.pix x y)).h : ℚ) ∧ ((conv (img.pix x y)).h : ℚ) ≤ params.HighH
        ∧ params.LowS ≤ ((conv (img.pix x y)).s : ℚ) ∧ ((conv (img.pix x y)).s : ℚ) ≤ params.HighS
        ∧ params.LowV ≤ ((conv (img.pix x y)).v : ℚ)
        ∧ ((conv (img.pix x y)).v : ℚ) ≤ params.HighV)) :
    (∀ x < img.width, ∀ y < img.height, (thresholdedMask conv img params).pix x y = 0)
    ∧ (moments (thresholdedMask conv img params)).m00 = 0
    ∧ (FindBall conv img params).1.Found = false
    ∧ (FindBall conv img params).1.X = 0
    ∧ (FindBall conv img params).1.Y = 0 := by
  have hz : ∀ x < img.width, ∀ y < img.height,
      (thresholdedMask conv img params).pix x y = 0 := by
    apply thresholdedMask_const conv img params 0 (by omega)
    intro x hx y hy
    have := hout x hx y hy
    simp only [inRange, cvtColor, inBounds]
    rw [if_neg]
    simpa using this
  have hm : (moments (thresholdedMask conv img params)).m00 = 0 := by
    rw [m00_const conv img params 0 hz]; simp
  refine ⟨hz, hm, ?_⟩
  unfold FindBall
  simp [hm]

/-- Witness of `findBall_nothing_in_range`: a 3×2 frame of hue 10 against hue bounds 50..60. -/
theorem findBall_nothing_in_range_witness :
    (∀ x < 3, ∀ y < 2, (thresholdedMask sampleConv (uniformFrame 3 2 ⟨10, 20, 30⟩)
        ⟨50, 0, 0, 60, 255, 255⟩).pix x y = 0)
    ∧ (moments (thresholdedMask sampleConv (uniformFrame 3 2 ⟨10, 20, 30⟩)
        ⟨50, 0, 0, 60, 255, 255⟩)).m00 = 0
    ∧ (FindBall sampleConv (uniformFrame 3 2 ⟨10, 20, 30⟩) ⟨50, 0, 0, 60, 255, 255⟩).1.Found
        = false
    ∧ (FindBall sampleConv (uniformFrame 3 2 ⟨10, 20, 30⟩) ⟨50, 0, 0, 60, 255, 255⟩).1.X = 0
    ∧ (FindBall sampleConv (uniformFrame 3 2 ⟨10, 20, 30⟩) ⟨50, 0, 0, 60, 255, 255⟩).1.Y = 0 :=
  findBall_nothing_in_range sampleConv (uniformFrame 3 2 ⟨10, 20, 30⟩) ⟨50, 0, 0, 60, 255, 255⟩
    (fun _ _ _ _ h =>
      have hle : (50 : ℚ) ≤ ((10 % 180 : ℕ) : ℚ) := h.1
      absurd hle (by decide))

/-- C3, refuted as stated: under the widest bounds and with a frame of one in-range colour, a
1×1 frame gives `Found = false`, and an 8×5 frame gives `Found = true` with `m00 = 10200`,
which is 255 times the pixel count 40 and not the pixel count. -/
theorem findBall_uniform_counterexample :
    ((sampleConv ⟨10, 20, 30⟩).h ≤ 179 ∧ (sampleConv ⟨10, 20, 30⟩).s ≤ 255
        ∧ (sampleConv ⟨10, 20, 30⟩).v ≤ 255)
    ∧ ¬ ((FindBall sampleConv (uniformFrame 1 1 ⟨10, 20, 30⟩) widestParams).1.Found = true
        ∧ (moments (thresholdedMask sampleConv (uniformFrame 1 1 ⟨10, 20, 30⟩)
            widestParams)).m00 = 1 * 1)
    ∧ (FindBall sampleConv (uniformFrame 8 5 ⟨10, 20, 30⟩) widestParams).1.Found = true
    ∧ (moments (thresholdedMask sampleConv (uniformFrame 8 5 ⟨10, 20, 30⟩)
        widestParams)).m00 = 10200
    ∧ ¬ ((moments (thresholdedMask sampleConv (uniformFrame 8 5 ⟨10, 20, 30⟩)
        widestParams)).m00 ≤ 8 * 5) := by
  have a := m00_uniform_widest sampleConv (uniformFrame 1 1 ⟨10, 20, 30⟩) ⟨10, 20, 30⟩
    (fun _ _ _ _ => rfl) (by decide) (by decide) (by decide)
  have b := m00_uniform_widest sampleConv (uniformFrame 8 5 ⟨10, 20, 30⟩) ⟨10, 20, 30⟩
    (fun _ _ _ _ => rfl) (by decide) (by decide) (by decide)
  have a' : (moments (thresholdedMask sampleConv (uniformFrame 1 1 ⟨10, 20, 30⟩)
      widestParams)).m00 = 255 := a
  have b' : (moments (thresholdedMask sampleConv (uniformFrame 8 5 ⟨10, 20, 30⟩)
      widestParams)).m00 = 10200 := b
  refine ⟨by decide, ?_, ?_, b', ?_⟩
  · intro h
    rw [a'] at h
    exact absurd h.2 (by decide)
  · rw [findBall_found_eq, b']; decide
  · rw [b']; decide

/-- C3, amended: under the widest bounds, for every frame of one colour whose HSV value is
within them, the mask has `m00 = 255 * width * height` (every pixel is on and counts 255) and
`Found` is true exactly when `255 * width * height > 10000`. -/
theorem findBall_uniform_widest (conv : BGR → HSV) (img : Image BGR) (colour : BGR)
    (huni : ∀ x < img.width, ∀ y < img.height, img.pix x y = colour)
    (hh : (conv colour).h ≤ 179) (hs : (conv colour).s ≤ 255) (hv : (conv colour).v ≤ 255) :
    (moments (thresholdedMask conv img widestParams)).m00 = 255 * (img.width * img.height)
    ∧ ((FindBall conv img widestParams).1.Found = true
        ↔ 10000 < 255 * (img.width * img.height)) := by
  have hm := m00_uniform_widest conv img colour huni hh hs hv
  refine ⟨hm, ?_⟩
  rw [findBall_found_eq, hm]
  simp

/-- Witness of `findBall_uniform_widest`: an 8×5 frame of one colour. -/
theorem findBall_uniform_widest_witness :
    (moments (thresholdedMask sampleConv (uniformFrame 8 5 ⟨10, 20, 30⟩) widestParams)).m00
        = 255 * (8 * 5)
    ∧ ((FindBall sampleConv (uniformFrame 8 5 ⟨10, 20, 30⟩) widestParams).1.Found = true
        ↔ 10000 < 255 * (8 * 5)) :=
  findBall_uniform_widest sampleConv (uniformFrame 8 5 ⟨10, 20, 30⟩) ⟨10, 20, 30⟩
    (fun _ _ _ _ => rfl) (by decide) (by decide) (by decide)

/-- C4: for every mask that is zero except on a solid rectangle of on pixels with top-left
corner `(x0, y0)`, width `w ≥ 1` and height `h ≥ 1`, the centroid quotients of `FindBall` are
`floor (m10 / m00) = x0 + floor ((w - 1) / 2)` and `floor (m01 / m00) = y0 + floor ((h - 1) / 2)`. -/
theorem centroid_of_rectangle (mask : Image Nat) (x0 y0 w h : Nat)
    (hw : 1 ≤ w) (hh : 1 ≤ h) (hx : x0 + w ≤ mask.width) (hy : y0 + h ≤ mask.height)
    (hmask : ∀ x < mask.width, ∀ y < mask.height,
      mask.pix x y = if x0 ≤ x ∧ x < x0 + w ∧ y0 ≤ y ∧ y < y0 + h then 255 else 0) :
    (moments mask).m10 / (moments mask).m00 = x0 + (w - 1) / 2
    ∧ (moments mask).m01 / (moments mask).m00 = y0 + (h - 1) / 2 := by
  -- the indicator of the rectangle is a product of a column part and a row part
  have e00 : ∀ x < mask.width, ∀ y < mask.height, mask.pix x y
      = (if x0 ≤ x ∧ x < x0 + w then 255 else 0) * (if y0 ≤ y ∧ y < y0 + h then 1 else 0) := by
    intro x hx' y hy'
    rw [hmask x hx' y hy']
    by_cases a : x0 ≤ x ∧ x < x0 + w <;> by_cases b : y0 ≤ y ∧ y < y0 + h <;>
      simp [a, b]
  have e10 : ∀ x < mask.width, ∀ y < mask.height, x * mask.pix x y
      = (if x0 ≤ x ∧ x < x0 + w then 255 * x else 0)
        * (if y0 ≤ y ∧ y < y0 + h then 1 else 0) := by
    intro x hx' y hy'
    rw [e00 x hx' y hy']
    by_cases a : x0 ≤ x ∧ x < x0 + w <;> by_cases b : y0 ≤ y ∧ y < y0 + h <;>
      simp [a, b]
    ring
  have e01 : ∀ x < mask.width, ∀ y < mask.height, y * mask.pix x y
      = (if x0 ≤ x ∧ x < x0 + w then 255 else 0)
        * (if y0 ≤ y ∧ y < y0 + h then y else 0) := by
    intro x hx' y hy'
    rw [e00 x hx' y hy']
    by_cases a : x0 ≤ x ∧ x < x0 + w <;> by_cases b : y0 ≤ y ∧ y < y0 + h <;>
      simp [a, b]
    ring
  have m00 : (moments mask).m00 = (w * 255) * h := by
    show rasterSum mask.width mask.height (fun x y => mask.pix x y) = _
    rw [rasterSum_congr e00, rasterSum_mul, sum_range_window (fun _ => 255) x0 w _ hx,
      sum_range_window (fun _ => 1) y0 h _ hy, sum_range_const, sum_range_const]
    ring
  have m10 : (moments mask).m10
      = (255 * ((List.range w).map fun i => x0 + i).sum) * h := by
    show rasterSum mask.width mask.height (fun x y => x * mask.pix x y) = _
    rw [rasterSum_congr e10, rasterSum_mul, sum_range_window (fun x => 255 * x) x0 w _ hx,
      sum_range_window (fun _ => 1) y0 h _ hy, sum_range_const]
    have : ((List.range w).map fun i => 255 * (x0 + i)).sum
        = ((List.range w).map fun i => x0 + i).sum * 255 := by
      rw [← sum_range_mul_right]
      apply sum_range_congr
      intro i _
      ring
    rw [this]
    ring
  have m01 : (moments mask).m01
      = (w * 255) * ((List.range h).map fun j => y0 + j).sum := by
    show rasterSum mask.width mask.height (fun x y => y * mask.pix x y) = _
    rw [rasterSum_congr e01, rasterSum_mul, sum_range_window (fun _ => 255) x0 w _ hx,
      sum_range_window (fun y => y) y0 h _ hy, sum_range_const]
  constructor
  · rw [m10, m00]
    have e : 255 * ((List.range w).map fun i => x0 + i).sum * h
        = (255 * h) * ((List.range w).map fun i => x0 + i).sum := by ring
    have e' : w * 255 * h = (255 * h) * w := by ring
    rw [e, e', Nat.mul_div_mul_left _ _ (by positivity)]
    exact mean_of_window x0 w _ hw (sum_range_arith x0 w)
  · rw [m01, m00]
    have e : w * 255 * ((List.range h).map fun j => y0 + j).sum
        = (w * 255) * ((List.range h).map fun j => y0 + j).sum := by ring
    rw [Nat.mul_div_mul_left _ _ (by positivity)]
    exact mean_of_window y0 h _ hh (sum_range_arith y0 h)

/-- Witness of `centroid_of_rectangle`: a 4×3 rectangle at `(2, 1)` in a 10×8 mask. -/
theorem centroid_of_rectangle_witness :
    (moments (rectMask 10 8 2 1 4 3)).m10 / (moments (rectMask 10 8 2 1 4 3)).m00
        = 2 + (4 - 1) / 2
    ∧ (moments (rectMask 10 8 2 1 4 3)).m01 / (moments (rectMask 10 8 2 1 4 3)).m00
        = 1 + (3 - 1) / 2 :=
  centroid_of_rectangle (rectMask 10 8 2 1 4 3) 2 1 4 3 (by decide) (by decide)
    (by decide) (by decide) (fun _ _ _ _ => rfl)

/-! ## Reading back what `marshalIndent` wrote -/

theorem endsNumber_comma : endsNumber ',' := by intro st; cases st <;> rfl

theorem endsNumber_newline : endsNumber '\n' := by intro st; cases st <;> rfl

/-- A literal the scanner reads whole is read the same when a character that ends a number
follows it. -/
theorem scanNumber_append (c : Char) (rest : List Char) (hc : endsNumber c) :
    ∀ (lit : List Char) (st : NumState), scanNumber st lit = some (lit, []) →
      scanNumber st (lit ++ c :: rest) = some (lit, c :: rest) := by
  intro lit
  induction lit with
  | nil =>
    intro st h
    simp only [scanNumber] at h
    simp only [List.nil_append, scanNumber, hc st]
    split at h
    · rename_i ha; simp [ha]
    · simp at h
  | cons d t ih =>
    intro st h
    simp only [scanNumber] at h
    simp only [List.cons_append, scanNumber]
    cases hs : numStep st d with
    | none =>
      rw [hs] at h
      simp only at h
      split at h <;> simp at h
    | some st' =>
      rw [hs] at h
      simp only at h
      cases hr : scanNumber st' t with
      | none => rw [hr] at h; simp at h
      | some r =>
        rw [hr] at h
        obtain ⟨l, r'⟩ := r
        simp only [Option.some.injEq, Prod.mk.injEq, List.cons.injEq, true_and] at h
        obtain ⟨rfl, rfl⟩ := h
        have e := ih st' hr
        simp only [List.append_eq, e]

theorem skipSpace_of_not_space (d : Char) (l : List Char) (h : isSpace d = false) :
    skipSpace (d :: l) = d :: l := by
  simp [skipSpace, h]

theorem skipSpace_of_space (d : Char) (l : List Char) (h : isSpace d = true) :
    skipSpace (d :: l) = skipSpace l := by
  simp [skipSpace, h]

/-- The first character of a number literal. -/
theorem number_head (lit : List Char) (h : scanNumber .start lit = some (lit, [])) :
    ∃ d t, lit = d :: t ∧ numStep .start d ≠ none := by
  cases lit with
  | nil => simp [scanNumber, numAccepting] at h
  | cons d t =>
    refine ⟨d, t, rfl, ?_⟩
    intro hn
    simp [scanNumber, hn, numAccepting] at h

/-- A number literal followed by a comma or a line feed is read as that number, through any
leading space. -/
theorem parseValue_number (n : Nat) (lit : List Char) (c : Char) (rest : List Char)
    (h : scanNumber .start lit = some (lit, [])) (hc : endsNumber c) :
    parseValue (n + 1) (' ' :: (lit ++ c :: rest)) = some (JSON.num lit, c :: rest) := by
  obtain ⟨d, t, rfl, hd⟩ := number_head lit h
  have hscan := scanNumber_append c rest hc (d :: t) .start h
  have hsp : isSpace d = false := by
    by_contra hh
    simp only [Bool.not_eq_false] at hh
    simp only [isSpace, Bool.or_eq_true, decide_eq_true_eq] at hh
    rcases hh with ((rfl | rfl) | rfl) | rfl <;> exact hd rfl
  have h1 : d ≠ '{' := by rintro rfl; exact hd rfl
  have h2 : d ≠ '[' := by rintro rfl; exact hd rfl
  have h3 : d ≠ '"' := by rintro rfl; exact hd rfl
  have h4 : d ≠ 't' := by rintro rfl; exact hd rfl
  have h5 : d ≠ 'f' := by rintro rfl; exact hd rfl
  have h6 : d ≠ 'n' := by rintro rfl; exact hd rfl
  simp only [List.cons_append] at hscan ⊢
  have hs : skipSpace (' ' :: d :: (t ++ c :: rest)) = d :: (t ++ c :: rest) := by
    rw [skipSpace_of_space _ _ (by decide), skipSpace_of_not_space _ _ hsp]
  simp only [parseValue, hs, h1, h2, h3, h4, h5, h6, hscan, if_false]

theorem parseString_plain (c : Char) (rest : List Char) (h1 : c ≠ '"') (h2 : c ≠ '\\')
    (h3 : ¬ c.toNat < 0x20) :
    parseString none (c :: rest) = prepend [c] (parseString none rest) := by
  rw [parseString.eq_def]
  simp only [h1, h2, h3, if_false, flushSurrogate, List.nil_append]

theorem parseString_quote (rest : List Char) :
    parseString none ('"' :: rest) = some ([], rest) := by
  rw [parseString.eq_def]
  simp [flushSurrogate]

theorem parseString_name (f : Field) (rest : List Char) :
    parseString none (f.name ++ '"' :: rest) = some (f.name, rest) := by
  cases f <;>
    simp (disch := decide) only [Field.name, String.toList, List.cons_append, List.nil_append,
      parseString_plain, parseString_quote, prepend]

theorem parseMembers_line (formatFloat : ℚ → List Char) (p : Params) (n : Nat) (f : Field)
    (c : Char) (rest : List Char) (acc : List (List Char × JSON))
    (h : scanNumber .start (formatFloat (p.get f)) = some (formatFloat (p.get f), []))
    (hc : endsNumber c) :
    parseMembers (n + 2) ('\n' :: (marshalMember formatFloat p f ++ c :: rest)) acc
      = match skipSpace (c :: rest) with
        | ',' :: cs5 => parseMembers (n + 1) cs5 (acc ++ [(f.name, JSON.num (formatFloat (p.get f)))])
        | '}' :: cs5 => some (JSON.obj (acc ++ [(f.name, JSON.num (formatFloat (p.get f)))]), cs5)
        | _ => none := by
  have e1 : "    \"".toList = [' ', ' ', ' ', ' ', '"'] := rfl
  have e2 : "\": ".toList = ['"', ':', ' '] := rfl
  have hs : skipSpace ('\n' :: (marshalMember formatFloat p f ++ c :: rest))
      = '"' :: (f.name ++ '"' :: ':' :: ' ' :: (formatFloat (p.get f) ++ c :: rest)) := by
    simp [marshalMember, e1, e2, skipSpace, isSpace]
  rw [parseMembers]
  simp only [hs, parseString_name]
  rw [skipSpace_of_not_space _ _ (by decide)]
  simp only [parseValue_number n _ c rest h hc]

theorem skipSpace_member (formatFloat : ℚ → List Char) (p : Params) (f : Field)
    (rest : List Char) :
    skipSpace ('\n' :: (marshalMember formatFloat p f ++ rest))
      = '"' :: (f.name ++ '"' :: ':' :: ' ' :: (formatFloat (p.get f) ++ rest)) := by
  have e1 : "    \"".toList = [' ', ' ', ' ', ' ', '"'] := rfl
  have e2 : "\": ".toList = ['"', ':', ' '] := rfl
  simp [marshalMember, e1, e2, skipSpace, isSpace]

/-- The text `marshalIndent` produces, as one list. -/
theorem marshalIndent_eq (formatFloat : ℚ → List Char) (p : Params) :
    marshalIndent formatFloat p = .ok ('{' :: '\n' ::
      (marshalMember formatFloat p .LowH ++ ',' :: '\n' ::
      (marshalMember formatFloat p .LowS ++ ',' :: '\n' ::
      (marshalMember formatFloat p .LowV ++ ',' :: '\n' ::
      (marshalMember formatFloat p .HighH ++ ',' :: '\n' ::
      (marshalMember formatFloat p .HighS ++ ',' :: '\n' ::
      (marshalMember formatFloat p .HighV ++ ['\n', '}']))))))) := by
  have e1 : "\x7b\n".toList = ['{', '\n'] := rfl
  have e2 : ",\n".toList = [',', '\n'] := rfl
  have e3 : "\n\x7d".toList = ['\n', '}'] := rfl
  simp only [marshalIndent, e1, e2, e3, List.append_assoc, List.cons_append, List.nil_append]

/-- The value read back from the text of `marshalIndent`, with fuel to spare. -/
theorem parseValue_marshal (formatFloat : ℚ → List Char) (p : Params) (n : Nat)
    (hfmt : ∀ f : Field,
      scanNumber .start (formatFloat (p.get f)) = some (formatFloat (p.get f), [])) :
    parseValue (n + 8) ('{' :: '\n' ::
      (marshalMember formatFloat p .LowH ++ ',' :: '\n' ::
      (marshalMember formatFloat p .LowS ++ ',' :: '\n' ::
      (marshalMember formatFloat p .LowV ++ ',' :: '\n' ::
      (marshalMember formatFloat p .HighH ++ ',' :: '\n' ::
      (marshalMember formatFloat p .HighS ++ ',' :: '\n' ::
      (marshalMember formatFloat p .HighV ++ ['\n', '}'])))))))
    = some (JSON.obj (Field.all.map fun f => (f.name, JSON.num (formatFloat (p.get f)))), []) := by
  rw [parseValue, skipSpace_of_not_space _ _ (by decide)]
  simp only [if_true, skipSpace_member]
  rw [parseMembers_line formatFloat p (n + 5) .LowH ',' _ _ (hfmt _) endsNumber_comma,
    skipSpace_of_not_space _ _ (by decide)]
  simp only
  rw [parseMembers_line formatFloat p (n + 4) .LowS ',' _ _ (hfmt _) endsNumber_comma,
    skipSpace_of_not_space _ _ (by decide)]
  simp only
  rw [parseMembers_line formatFloat p (n + 3) .LowV ',' _ _ (hfmt _) endsNumber_comma,
    skipSpace_of_not_space _ _ (by decide)]
  simp only
  rw [parseMembers_line formatFloat p (n + 2) .HighH ',' _ _ (hfmt _) endsNumber_comma,
    skipSpace_of_not_space _ _ (by decide)]
  simp only
  rw [parseMembers_line formatFloat p (n + 1) .HighS ',' _ _ (hfmt _) endsNumber_comma,
    skipSpace_of_not_space _ _ (by decide)]
  simp only
  rw [parseMembers_line formatFloat p n .HighV '\n' _ _ (hfmt _) endsNumber_newline,
    skipSpace_of_space _ _ (by decide), skipSpace_of_not_space _ _ (by decide)]
  simp [Field.all]

theorem fieldOf_name (f : Field) : fieldOf f.name = some f := by
  cases f <;> decide

/-- Storing the members read back from `marshalIndent` assigns every field its own value. -/
theorem unmarshal_marshal (formatFloat : ℚ → List Char) (parseFloat : List Char → Option ℚ)
    (b p0 : Params)
    (hparse : ∀ f : Field, parseFloat (formatFloat (b.get f)) = some (b.get f)) :
    unmarshal parseFloat
      (JSON.obj (Field.all.map fun f => (f.name, JSON.num (formatFloat (b.get f))))) p0
      = .ok b := by
  simp only [unmarshal, Field.all, List.map, List.foldl, storeMember, fieldOf_name, hparse]
  cases b
  rfl

theorem get_set_of_ne (p : Params) (f g : Field) (x : ℚ) (h : g ≠ f) :
    (p.set g x).get f = p.get f := by
  cases f <;> cases g <;> first | rfl | exact absurd rfl h

/-- Storing a member whose key does not select `f` leaves field `f` as it was. -/
theorem storeMember_get (parseFloat : List Char → Option ℚ) (st : DecodeState)
    (kv : List Char × JSON) (f : Field) (h : fieldOf kv.1 ≠ some f) :
    (storeMember parseFloat st kv).1.get f = st.1.get f := by
  unfold storeMember
  cases hk : fieldOf kv.1 with
  | none => rfl
  | some g =>
    simp only
    have hg : g ≠ f := by
      intro e
      exact h (by rw [hk, e])
    cases hv : kv.2 with
    | num lit =>
      cases hp : parseFloat lit with
      | none => simp only [hp]
      | some x => simp only [hp]; exact get_set_of_ne _ _ _ _ hg
    | null => rfl
    | bool _ => rfl
    | str _ => rfl
    | arr _ => rfl
    | obj _ => rfl

theorem foldl_storeMember_get (parseFloat : List Char → Option ℚ)
    (kvs : List (List Char × JSON)) (f : Field) (h : ∀ kv ∈ kvs, fieldOf kv.1 ≠ some f) :
    ∀ st : DecodeState, (kvs.foldl (storeMember parseFloat) st).1.get f = st.1.get f := by
  induction kvs with
  | nil => intro st; rfl
  | cons kv t ih =>
    intro st
    rw [List.foldl_cons, ih (fun kv' hkv' => h kv' (List.mem_cons_of_mem _ hkv')),
      storeMember_get parseFloat st kv f (h kv (List.mem_cons_self _ _))]

/-! ## Configuration store: the claims -/

/-- C5: round trip.  When `writeParams(path, b)` succeeds (the file is created and the record
is written), it returns `nil` and `loadParams(path)` afterwards returns `b` with a `nil` error.
The two `strconv` routines enter through their contract on the six values: the formatted text
is a JSON number literal and parses back to the value. -/
theorem save_load_roundtrip (formatFloat : ℚ → List Char) (parseFloat : List Char → Option ℚ)
    (fs : FileSystem) (path : String) (b : Params)
    (hfmt : ∀ f : Field,
      scanNumber .start (formatFloat (b.get f)) = some (formatFloat (b.get f), []))
    (hparse : ∀ f : Field, parseFloat (formatFloat (b.get f)) = some (b.get f))
    (hcreate : fs.creatable path = true) (hwrite : fs.writable path = true) :
    (writeParams formatFloat fs path b).1 = none
    ∧ loadParams parseFloat (writeParams formatFloat fs path b).2 path = (some b, none) := by
  refine ⟨?_, ?_⟩
  · simp [writeParams, osCreate, hcreate, marshalIndent]
  · have hfile : ((writeParams formatFloat fs path b).2).files path
        = some ('{' :: '\n' ::
          (marshalMember formatFloat b .LowH ++ ',' :: '\n' ::
          (marshalMember formatFloat b .LowS ++ ',' :: '\n' ::
          (marshalMember formatFloat b .LowV ++ ',' :: '\n' ::
          (marshalMember formatFloat b .HighH ++ ',' :: '\n' ::
          (marshalMember formatFloat b .HighS ++ ',' :: '\n' ::
          (marshalMember formatFloat b .HighV ++ ['\n', '}']))))))) := by
      simp [writeParams, osCreate, hcreate, marshalIndent_eq, fileWrite, hwrite]
    have hlen : 7 ≤ ('{' :: '\n' ::
          (marshalMember formatFloat b .LowH ++ ',' :: '\n' ::
          (marshalMember formatFloat b .LowS ++ ',' :: '\n' ::
          (marshalMember formatFloat b .LowV ++ ',' :: '\n' ::
          (marshalMember formatFloat b .HighH ++ ',' :: '\n' ::
          (marshalMember formatFloat b .HighS ++ ',' :: '\n' ::
          (marshalMember formatFloat b .HighV ++ ['\n', '}']))))))).length := by
      simp only [List.length_cons, List.length_append]
      omega
    obtain ⟨n, hn⟩ := Nat.exists_eq_add_of_le hlen
    have hn' : ('{' :: '\n' ::
          (marshalMember formatFloat b .LowH ++ ',' :: '\n' ::
          (marshalMember formatFloat b .LowS ++ ',' :: '\n' ::
          (marshalMember formatFloat b .LowV ++ ',' :: '\n' ::
          (marshalMember formatFloat b .HighH ++ ',' :: '\n' ::
          (marshalMember formatFloat b .HighS ++ ',' :: '\n' ::
          (marshalMember formatFloat b .HighV ++ ['\n', '}']))))))).length + 1 = n + 8 := by
      omega
    simp only [loadParams, osOpen, hfile, decode, readValue, hn',
      parseValue_marshal formatFloat b n hfmt, unmarshal_marshal formatFloat parseFloat b _ hparse]

/-- Witness of `save_load_roundtrip`: in-range integer bounds, written to a fresh
`config.json` and loaded back. -/
theorem save_load_roundtrip_witness :
    (writeParams formatDigits emptyFS "config.json" ⟨12, 34, 56, 179, 255, 200⟩).1 = none
    ∧ loadParams parseDigits
        (writeParams formatDigits emptyFS "config.json" ⟨12, 34, 56, 179, 255, 200⟩).2
        "config.json" = (some ⟨12, 34, 56, 179, 255, 200⟩, none) :=
  save_load_roundtrip formatDigits parseDigits emptyFS "config.json" ⟨12, 34, 56, 179, 255, 200⟩
    (by intro f; cases f <;> decide) (by intro f; cases f <;> decide) rfl rfl

/-- C6: `loadParams` on a path at which no file can be opened returns the default `Params`
`(0, 0, 0, 179, 255, 255)` and a `nil` error. -/
theorem loadParams_no_file (parseFloat : List Char → Option ℚ) (fs : FileSystem) (path : String)
    (h : fs.files path = none) :
    loadParams parseFloat fs path = (some ⟨0, 0, 0, 179, 255, 255⟩, none) := by
  simp [loadParams, osOpen, h]

/-- Witness of `loadParams_no_file`: the file system without files. -/
theorem loadParams_no_file_witness :
    loadParams parseDigits emptyFS "config.json" = (some ⟨0, 0, 0, 179, 255, 255⟩, none) :=
  loadParams_no_file parseDigits emptyFS "config.json" rfl

/-- C8, refuted as stated: the record `{"LowH": 5}` lacks five fields, and `loadParams`
returns `HighH = 179`, `HighS = 255`, `HighV = 255`, the hardcoded defaults, not 0. -/
theorem loadParams_partial_record_counterexample :
    loadParams parseDigits (configFS "\x7b\"LowH\": 5\x7d") "config.json"
        = (some ⟨5, 0, 0, 179, 255, 255⟩, none)
    ∧ (179 : ℚ) ≠ 0 ∧ (255 : ℚ) ≠ 0 := by
  decide

/-- C8, amended: when the config file holds a record (a JSON object) and `loadParams`
succeeds, every field that no member of the record selects keeps its hardcoded default: 0 for
`LowH`, `LowS`, `LowV`, 179 for `HighH`, 255 for `HighS` and `HighV`. -/
theorem loadParams_missing_field_default (parseFloat : List Char → Option ℚ) (fs : FileSystem)
    (path : String) (content : List Char) (kvs : List (List Char × JSON)) (rest : List Char)
    (p : Params) (f : Field)
    (hopen : fs.files path = some content)
    (hobj : readValue content = some (JSON.obj kvs, rest))
    (hok : loadParams parseFloat fs path = (some p, none))
    (hmissing : ∀ kv ∈ kvs, fieldOf kv.1 ≠ some f) :
    p.get f = defaultParams.get f := by
  have hfold := foldl_storeMember_get parseFloat kvs f hmissing (defaultParams, none)
  simp only [loadParams, osOpen, hopen, decode, hobj, unmarshal] at hok
  have hd : (⟨0, 0, 0, 179, 255, 255⟩ : Params) = defaultParams := rfl
  rw [hd] at hok
  generalize kvs.foldl (storeMember parseFloat) (defaultParams, none) = r at hok hfold
  obtain ⟨q, e⟩ := r
  cases e with
  | none =>
    simp only [Prod.mk.injEq, Option.some.injEq, and_true] at hok
    rw [← hok]
    exact hfold
  | some err => simp at hok

/-- Witness of `loadParams_missing_field_default`: the record `{"LowH": 5}` and the field
`HighH`. -/
theorem loadParams_missing_field_default_witness :
    (⟨5, 0, 0, 179, 255, 255⟩ : Params).get .HighH = defaultParams.get .HighH :=
  loadParams_missing_field_default parseDigits (configFS "\x7b\"LowH\": 5\x7d") "config.json"
    "\x7b\"LowH\": 5\x7d".toList [("LowH".toList, JSON.num "5".toList)] [] ⟨5, 0, 0, 179, 255, 255⟩
    .HighH rfl (by rfl) (by decide) (by decide)

/-- C9, at the failing input: on a full device the file is created and the write fails, and
`writeParams` still returns `nil`; the file is left empty. -/
theorem writeParams_swallows_write_error :
    (writeParams formatDigits fullDiskFS "config.json" defaultParams).1 = none
    ∧ (fileWrite fullDiskFS "config.json" []).1 = some Error.writeFailed
    ∧ (writeParams formatDigits fullDiskFS "config.json" defaultParams).2.files "config.json"
        = some [] := by
  decide

/-- C10, at the failing input: with a `config.json` that does not parse, `loadParams` returns
a `nil` pointer and an error, nothing is written to standard output, and the set-up ends in the
nil dereference at the first `CreateTrackbar`; no trackbar is created. -/
theorem mainSetup_parse_failure :
    loadParams parseDigits (configFS "not json") "config.json" = (none, some Error.jsonRead)
    ∧ mainSetup parseDigits (configFS "not json") = ([], Setup.nilDereference) := by
  decide

/-! ## The decoder accepts only JSON syntax -/

theorem allSpace_nil : AllSpace [] := by intro c hc; cases hc

theorem allSpace_cons {c : Char} {w : List Char} (hc : isSpace c = true) (hw : AllSpace w) :
    AllSpace (c :: w) := by
  intro d hd
  rcases List.mem_cons.mp hd with rfl | h
  · exact hc
  · exact hw d h

theorem skipSpace_split (cs : List Char) : ∃ w, AllSpace w ∧ cs = w ++ skipSpace cs := by
  induction cs with
  | nil => exact ⟨[], allSpace_nil, rfl⟩
  | cons c t ih =>
    by_cases hc : isSpace c = true
    · obtain ⟨w, hw, e⟩ := ih
      refine ⟨c :: w, allSpace_cons hc hw, ?_⟩
      rw [skipSpace_of_space _ _ hc, List.cons_append, ← e]
    · refine ⟨[], allSpace_nil, ?_⟩
      rw [skipSpace_of_not_space _ _ (by simpa using hc)]
      rfl

theorem scanNumber_sound : ∀ (cs : List Char) (st : NumState) (lit rest : List Char),
    scanNumber st cs = some (lit, rest) → cs = lit ++ rest ∧ scanNumber st lit = some (lit, []) := by
  intro cs
  induction cs with
  | nil =>
    intro st lit rest h
    simp only [scanNumber] at h
    split at h
    · rename_i ha
      simp only [Option.some.injEq, Prod.mk.injEq] at h
      obtain ⟨rfl, rfl⟩ := h
      simp [scanNumber, ha]
    · simp at h
  | cons c t ih =>
    intro st lit rest h
    simp only [scanNumber] at h
    cases hs : numStep st c with
    | none =>
      rw [hs] at h
      simp only at h
      split at h
      · rename_i ha
        simp only [Option.some.injEq, Prod.mk.injEq] at h
        obtain ⟨rfl, rfl⟩ := h
        simp [scanNumber, ha]
      · simp at h
    | some st' =>
      rw [hs] at h
      simp only at h
      cases hr : scanNumber st' t with
      | none => rw [hr] at h; simp at h
      | some r =>
        obtain ⟨l, r'⟩ := r
        rw [hr] at h
        simp only [Option.some.injEq, Prod.mk.injEq] at h
        obtain ⟨rfl, rfl⟩ := h
        obtain ⟨e1, e2⟩ := ih st' l r' hr
        refine ⟨by rw [e1]; rfl, ?_⟩
        simp only [scanNumber, hs, e2]

theorem prepend_eq_some {pre : List Char} {o : Option (List Char × List Char)}
    {s rest : List Char} (h : prepend pre o = some (s, rest)) :
    ∃ s', o = some (s', rest) := by
  cases o with
  | none => simp [prepend] at h
  | some r =>
    obtain ⟨a, b⟩ := r
    simp only [prepend, Option.some.injEq, Prod.mk.injEq] at h
    exact ⟨a, by rw [h.2]⟩

theorem parseString_sound : ∀ (n : Nat) (cs : List Char), cs.length ≤ n →
    ∀ (pending : Option Nat) (s rest : List Char),
    parseString pending cs = some (s, rest) →
    ∃ body, StringBody body ∧ cs = body ++ '"' :: rest := by
  intro n
  induction n with
  | zero =>
    intro cs hlen pending s rest h
    have : cs = [] := List.length_eq_zero.mp (Nat.le_zero.mp hlen)
    subst this
    rw [parseString.eq_def] at h
    simp at h
  | succ n ih =>
    intro cs hlen pending s rest h
    rw [parseString.eq_def] at h
    cases cs with
    | nil => simp at h
    | cons c t =>
      simp only at h
      simp only [List.length_cons] at hlen
      by_cases hq : c = '"'
      · subst hq
        simp only [if_true, Option.some.injEq, Prod.mk.injEq] at h
        exact ⟨[], StringBody.nil, by rw [h.2]; rfl⟩
      · simp only [hq, if_false] at h
        by_cases hb : c = '\\'
        · subst hb
          simp only [if_true] at h
          cases t with
          | nil => simp at h
          | cons e t1 =>
            simp only at h
            simp only [List.length_cons] at hlen
            by_cases hu : e = 'u'
            · subst hu
              simp only [if_true] at h
              match t1, h, hlen with
              | a :: b :: c' :: d :: t2, h, hlen =>
                simp only at h
                simp only [List.length_cons] at hlen
                cases hx : hex4 a b c' d with
                | none => rw [hx] at h; simp at h
                | some rr =>
                  rw [hx] at h
                  simp only at h
                  have hrec : ∃ pd s', parseString pd t2 = some (s', rest) := by
                    split at h
                    · obtain ⟨s', hs'⟩ := prepend_eq_some h
                      exact ⟨_, s', hs'⟩
                    · split at h
                      · obtain ⟨s', hs'⟩ := prepend_eq_some h
                        exact ⟨_, s', hs'⟩
                      · obtain ⟨s', hs'⟩ := prepend_eq_some h
                        exact ⟨_, s', hs'⟩
                  obtain ⟨pd, s', hs'⟩ := hrec
                  obtain ⟨body, hb, e⟩ := ih t2 (by omega) pd s' rest hs'
                  exact ⟨'\\' :: 'u' :: a :: b :: c' :: d :: body,
                    StringBody.unicode a b c' d body (by simp [hx]) hb, by rw [e]; rfl⟩
              | [], h, _ => simp at h
              | [_], h, _ => simp at h
              | [_, _], h, _ => simp at h
              | [_, _, _], h, _ => simp at h
            · simp only [hu, if_false] at h
              cases he : simpleEscape e with
              | none => rw [he] at h; simp at h
              | some ch =>
                rw [he] at h
                simp only at h
                obtain ⟨s', hs'⟩ := prepend_eq_some h
                obtain ⟨body, hb, e'⟩ := ih t1 (by omega) none s' rest hs'
                exact ⟨'\\' :: e :: body, StringBody.escape e body (by simp [he]) hb,
                  by rw [e']; rfl⟩
        · simp only [hb, if_false] at h
          by_cases hctl : c.toNat < 0x20
          · simp [hctl] at h
          · simp only [hctl, if_false] at h
            obtain ⟨s', hs'⟩ := prepend_eq_some h
            obtain ⟨body, hbd, e'⟩ := ih t (by omega) none s' rest hs'
            exact ⟨c :: body, StringBody.char c body hq hb hctl hbd, by rw [e']; rfl⟩

theorem parseString_sound' (cs : List Char) (pending : Option Nat) (s rest : List Char)
    (h : parseString pending cs = some (s, rest)) :
    ∃ body, StringBody body ∧ cs = body ++ '"' :: rest :=
  parseString_sound cs.length cs (Nat.le_refl _) pending s rest h

theorem parse_sound : ∀ fuel : Nat,
    (∀ cs v rest, parseValue fuel cs = some (v, rest) →
      ∃ w t, AllSpace w ∧ JSONValue t ∧ cs = w ++ (t ++ rest))
    ∧ (∀ cs acc v rest, parseMembers fuel cs acc = some (v, rest) →
      ∃ ms, JSONMembers ms ∧ cs = ms ++ '}' :: rest)
    ∧ (∀ cs acc v rest, parseElements fuel cs acc = some (v, rest) →
      ∃ es, JSONElements es ∧ cs = es ++ ']' :: rest) := by
  intro fuel
  induction fuel with
  | zero =>
    refine ⟨?_, ?_, ?_⟩
    · intro cs v rest h; simp [parseValue] at h
    · intro cs acc v rest h; simp [parseMembers] at h
    · intro cs acc v rest h; simp [parseElements] at h
  | succ fuel ih =>
    obtain ⟨ihV, ihM, ihE⟩ := ih
    refine ⟨?_, ?_, ?_⟩
    · intro cs v rest h
      rw [parseValue] at h
      obtain ⟨w, hw, e⟩ := skipSpace_split cs
      generalize skipSpace cs = sk at h e
      cases sk with
      | nil => simp at h
      | cons c r =>
        simp only at h
        subst e
        by_cases h1 : c = '{'
        · subst h1
          simp only [if_true] at h
          obtain ⟨w2, hw2, e2⟩ := skipSpace_split r
          split at h
          · rename_i rest' heq
            simp only [Option.some.injEq, Prod.mk.injEq] at h
            rw [heq, h.2] at e2
            exact ⟨w, _, hw, JSONValue.emptyObject w2 hw2, by rw [e2]; simp⟩
          · obtain ⟨ms, hms, e3⟩ := ihM _ _ _ _ h
            exact ⟨w, _, hw, JSONValue.object ms hms, by rw [e3]; simp⟩
        · simp only [h1, if_false] at h
          by_cases h2 : c = '['
          · subst h2
            simp only [if_true] at h
            obtain ⟨w2, hw2, e2⟩ := skipSpace_split r
            split at h
            · rename_i rest' heq
              simp only [Option.some.injEq, Prod.mk.injEq] at h
              rw [heq, h.2] at e2
              exact ⟨w, _, hw, JSONValue.emptyArray w2 hw2, by rw [e2]; simp⟩
            · obtain ⟨es, hes, e3⟩ := ihE _ _ _ _ h
              exact ⟨w, _, hw, JSONValue.array es hes, by rw [e3]; simp⟩
          · simp only [h2, if_false] at h
            by_cases h3 : c = '"'
            · subst h3
              simp only [if_true] at h
              cases hp : parseString none r with
              | none => rw [hp] at h; simp at h
              | some q =>
                obtain ⟨s, r'⟩ := q
                rw [hp] at h
                simp only [Option.some.injEq, Prod.mk.injEq] at h
                obtain ⟨body, hb, e3⟩ := parseString_sound' _ _ _ _ hp
                rw [h.2] at e3
                exact ⟨w, _, hw, JSONValue.string body hb, by rw [e3]; simp⟩
            · simp only [h3, if_false] at h
              by_cases h4 : c = 't'
              · subst h4
                simp only [if_true] at h
                split at h
                · simp only [Option.some.injEq, Prod.mk.injEq] at h
                  rw [h.2]
                  exact ⟨w, _, hw, JSONValue.true, by simp⟩
                · simp at h
              · simp only [h4, if_false] at h
                by_cases h5 : c = 'f'
                · subst h5
                  simp only [if_true] at h
                  split at h
                  · simp only [Option.some.injEq, Prod.mk.injEq] at h
                    rw [h.2]
                    exact ⟨w, _, hw, JSONValue.false, by simp⟩
                  · simp at h
                · simp only [h5, if_false] at h
                  by_cases h6 : c = 'n'
                  · subst h6
                    simp only [if_true] at h
                    split at h
                    · simp only [Option.some.injEq, Prod.mk.injEq] at h
                      rw [h.2]
                      exact ⟨w, _, hw, JSONValue.null, by simp⟩
                    · simp at h
                  · simp only [h6, if_false] at h
                    cases hn : scanNumber .start (c :: r) with
                    | none => rw [hn] at h; simp at h
                    | some q =>
                      obtain ⟨lit, r'⟩ := q
                      rw [hn] at h
                      simp only [Option.some.injEq, Prod.mk.injEq] at h
                      obtain ⟨e3, hl⟩ := scanNumber_sound _ _ _ _ hn
                      rw [h.2] at e3
                      exact ⟨w, lit, hw, JSONValue.number lit hl, by rw [e3]⟩
    · intro cs acc v rest h
      rw [parseMembers] at h
      obtain ⟨w1, hw1, e1⟩ := skipSpace_split cs
      split at h
      · rename_i cs1 heq
        rw [heq] at e1
        cases hp : parseString none cs1 with
        | none => rw [hp] at h; simp at h
        | some q =>
          obtain ⟨key, cs2⟩ := q
          rw [hp] at h
          simp only at h
          obtain ⟨k, hk, e2⟩ := parseString_sound' _ _ _ _ hp
          obtain ⟨w2, hw2, e3⟩ := skipSpace_split cs2
          split at h
          · rename_i cs3 heq3
            rw [heq3] at e3
            cases hv : parseValue fuel cs3 with
            | none => rw [hv] at h; simp at h
            | some q' =>
              obtain ⟨v', cs4⟩ := q'
              rw [hv] at h
              simp only at h
              obtain ⟨w3, t, hw3, ht, e4⟩ := ihV _ _ _ hv
              obtain ⟨w4, hw4, e5⟩ := skipSpace_split cs4
              split at h
              · rename_i cs5 heq5
                rw [heq5] at e5
                obtain ⟨ms, hms, e6⟩ := ihM _ _ _ _ h
                refine ⟨_, JSONMembers.more w1 k w2 w3 t w4 ms hw1 hk hw2 hw3 ht hw4 hms, ?_⟩
                rw [e1, e2, e3, e4, e5, e6]
                simp
              · rename_i cs5 heq5
                rw [heq5] at e5
                simp only [Option.some.injEq, Prod.mk.injEq] at h
                refine ⟨_, JSONMembers.last w1 k w2 w3 t w4 hw1 hk hw2 hw3 ht hw4, ?_⟩
                rw [e1, e2, e3, e4, e5, h.2]
                simp
              · simp at h
          · simp at h
      · simp at h
    · intro cs acc v rest h
      rw [parseElements] at h
      cases hv : parseValue fuel cs with
      | none => rw [hv] at h; simp at h
      | some q =>
        obtain ⟨v', cs1⟩ := q
        rw [hv] at h
        simp only at h
        obtain ⟨w1, t, hw1, ht, e1⟩ := ihV _ _ _ hv
        obtain ⟨w2, hw2, e2⟩ := skipSpace_split cs1
        split at h
        · rename_i cs2 heq
          rw [heq] at e2
          obtain ⟨es, hes, e3⟩ := ihE _ _ _ _ h
          refine ⟨_, JSONElements.more w1 t w2 es hw1 ht hw2 hes, ?_⟩
          rw [e1, e2, e3]
          simp
        · rename_i cs2 heq
          rw [heq] at e2
          simp only [Option.some.injEq, Prod.mk.injEq] at h
          refine ⟨_, JSONElements.last w1 t w2 hw1 ht hw2, ?_⟩
          rw [e1, e2, h.2]
          simp
        · simp at h


/-! ## The fuel of `readValue` is enough -/

theorem skipSpace_length (cs : List Char) : (skipSpace cs).length ≤ cs.length := by
  obtain ⟨w, _, e⟩ := skipSpace_split cs
  have := congrArg List.length e
  simp only [List.length_append] at this
  omega

theorem parseString_length (cs : List Char) (pending : Option Nat) (s rest : List Char)
    (h : parseString pending cs = some (s, rest)) : rest.length < cs.length := by
  obtain ⟨body, _, e⟩ := parseString_sound' cs pending s rest h
  have := congrArg List.length e
  simp only [List.length_append, List.length_cons] at this
  omega

theorem scanNumber_length (cs lit rest : List Char)
    (h : scanNumber .start cs = some (lit, rest)) : rest.length < cs.length := by
  obtain ⟨e, hl⟩ := scanNumber_sound cs .start lit rest h
  obtain ⟨d, t, rfl, _⟩ := number_head lit hl
  have := congrArg List.length e
  simp only [List.length_append, List.length_cons] at this
  omega

/-- A successful read consumes input, and succeeds alike with any fuel that is at least the
number of characters consumed. -/
theorem parse_fuel : ∀ fuel : Nat,
    (∀ cs v rest, parseValue fuel cs = some (v, rest) →
      rest.length < cs.length
      ∧ ∀ m, cs.length - rest.length ≤ m → parseValue m cs = some (v, rest))
    ∧ (∀ cs acc v rest, parseMembers fuel cs acc = some (v, rest) →
      rest.length < cs.length
      ∧ ∀ m, cs.length - rest.length ≤ m → parseMembers m cs acc = some (v, rest))
    ∧ (∀ cs acc v rest, parseElements fuel cs acc = some (v, rest) →
      rest.length < cs.length
      ∧ ∀ m, cs.length - rest.length ≤ m → parseElements m cs acc = some (v, rest)) := by
  intro fuel
  induction fuel with
  | zero =>
    refine ⟨?_, ?_, ?_⟩
    · intro cs v rest h; simp [parseValue] at h
    · intro cs acc v rest h; simp [parseMembers] at h
    · intro cs acc v rest h; simp [parseElements] at h
  | succ fuel ih =>
    obtain ⟨ihV, ihM, ihE⟩ := ih
    refine ⟨?_, ?_, ?_⟩
    · intro cs v rest h
      have h0 := h
      rw [parseValue] at h
      have hsl := skipSpace_length cs
      cases hsk : skipSpace cs with
      | nil => rw [hsk] at h; simp at h
      | cons c r =>
        rw [hsk] at h hsl
        simp only [List.length_cons] at hsl
        simp only at h
        by_cases h1 : c = '{'
        · subst h1
          simp only [if_true] at h
          have hsl2 := skipSpace_length r
          split at h
          · rename_i rest' heq
            simp only [Option.some.injEq, Prod.mk.injEq] at h
            rw [heq] at hsl2
            simp only [List.length_cons] at hsl2
            obtain ⟨hv, hr⟩ := h
            subst hr
            refine ⟨by omega, ?_⟩
            intro m hm
            obtain ⟨m', rfl⟩ : ∃ m', m = m' + 1 := ⟨m - 1, by omega⟩
            rw [parseValue, hsk]
            simp only [if_true, heq, hv]
          · rename_i hne
            obtain ⟨hlt, hfu⟩ := ihM _ _ _ _ h
            refine ⟨by omega, ?_⟩
            intro m hm
            obtain ⟨m', rfl⟩ : ∃ m', m = m' + 1 := ⟨m - 1, by omega⟩
            rw [parseValue, hsk]
            simp only [if_true]
            exact hfu m' (by omega)
        · by_cases h2 : c = '['
          · subst h2
            simp only [h1, if_false, if_true] at h
            have hsl2 := skipSpace_length r
            split at h
            · rename_i rest' heq
              simp only [Option.some.injEq, Prod.mk.injEq] at h
              rw [heq] at hsl2
              simp only [List.length_cons] at hsl2
              obtain ⟨hv, hr⟩ := h
              subst hr
              refine ⟨by omega, ?_⟩
              intro m hm
              obtain ⟨m', rfl⟩ : ∃ m', m = m' + 1 := ⟨m - 1, by omega⟩
              rw [parseValue, hsk]
              simp only [h1, if_false, if_true, heq, hv]
            · rename_i hne
              obtain ⟨hlt, hfu⟩ := ihE _ _ _ _ h
              refine ⟨by omega, ?_⟩
              intro m hm
              obtain ⟨m', rfl⟩ : ∃ m', m = m' + 1 := ⟨m - 1, by omega⟩
              rw [parseValue, hsk]
              simp only [h1, if_false, if_true]
              exact hfu m' (by omega)
          · -- every other value is read without recursion: any positive fuel does
            have hlt : rest.length < cs.length := by
              simp only [h1, h2, if_false] at h
              by_cases h3 : c = '"'
              · subst h3
                simp only [if_true] at h
                cases hp : parseString none r with
                | none => rw [hp] at h; simp at h
                | some q =>
                  obtain ⟨s, r'⟩ := q
                  rw [hp] at h
                  simp only [Option.some.injEq, Prod.mk.injEq] at h
                  have := parseString_length _ _ _ _ hp
                  rw [← h.2]
                  omega
              · simp only [h3, if_false] at h
                by_cases h4 : c = 't'
                · subst h4
                  simp only [if_true] at h
                  split at h
                  · simp only [Option.some.injEq, Prod.mk.injEq] at h
                    rw [← h.2]
                    simp only [List.length_cons] at hsl
                    omega
                  · simp at h
                · simp only [h4, if_false] at h
                  by_cases h5 : c = 'f'
                  · subst h5
                    simp only [if_true] at h
                    split at h
                    · simp only [Option.some.injEq, Prod.mk.injEq] at h
                      rw [← h.2]
                      simp only [List.length_cons] at hsl
                      omega
                    · simp at h
                  · simp only [h5, if_false] at h
                    by_cases h6 : c = 'n'
                    · subst h6
                      simp only [if_true] at h
                      split at h
                      · simp only [Option.some.injEq, Prod.mk.injEq] at h
                        rw [← h.2]
                        simp only [List.length_cons] at hsl
                        omega
                      · simp at h
                    · simp only [h6, if_false] at h
                      cases hn : scanNumber .start (c :: r) with
                      | none => rw [hn] at h; simp at h
                      | some q =>
                        obtain ⟨lit, r'⟩ := q
                        rw [hn] at h
                        simp only [Option.some.injEq, Prod.mk.injEq] at h
                        have := scanNumber_length _ _ _ hn
                        simp only [List.length_cons] at this
                        rw [← h.2]
                        omega
            refine ⟨hlt, ?_⟩
            intro m hm
            obtain ⟨m', rfl⟩ : ∃ m', m = m' + 1 := ⟨m - 1, by omega⟩
            rw [← h]
            rw [parseValue, hsk]
            simp only [h1, h2, if_false]
    · intro cs acc v rest h
      rw [parseMembers] at h
      have hsl := skipSpace_length cs
      split at h
      · rename_i cs1 heq
        rw [heq] at hsl
        simp only [List.length_cons] at hsl
        cases hp : parseString none cs1 with
        | none => rw [hp] at h; simp at h
        | some q =>
          obtain ⟨key, cs2⟩ := q
          rw [hp] at h
          simp only at h
          have hl2 := parseString_length _ _ _ _ hp
          have hsl2 := skipSpace_length cs2
          split at h
          · rename_i cs3 heq3
            rw [heq3] at hsl2
            simp only [List.length_cons] at hsl2
            cases hv : parseValue fuel cs3 with
            | none => rw [hv] at h; simp at h
            | some q' =>
              obtain ⟨v', cs4⟩ := q'
              rw [hv] at h
              simp only at h
              obtain ⟨hlv, hfv⟩ := ihV _ _ _ hv
              have hsl4 := skipSpace_length cs4
              split at h
              · rename_i cs5 heq5
                rw [heq5] at hsl4
                simp only [List.length_cons] at hsl4
                obtain ⟨hlm, hfm⟩ := ihM _ _ _ _ h
                refine ⟨by omega, ?_⟩
                intro m hm
                obtain ⟨m', rfl⟩ : ∃ m', m = m' + 1 := ⟨m - 1, by omega⟩
                rw [parseMembers]
                simp only [heq, hp, heq3, hfv m' (by omega), heq5]
                exact hfm m' (by omega)
              · rename_i cs5 heq5
                rw [heq5] at hsl4
                simp only [List.length_cons] at hsl4
                simp only [Option.some.injEq, Prod.mk.injEq] at h
                obtain ⟨hv', hr⟩ := h
                subst hr
                refine ⟨by omega, ?_⟩
                intro m hm
                obtain ⟨m', rfl⟩ : ∃ m', m = m' + 1 := ⟨m - 1, by omega⟩
                rw [parseMembers]
                simp only [heq, hp, heq3, hfv m' (by omega), heq5, hv']
              · simp at h
          · simp at h
      · simp at h
    · intro cs acc v rest h
      rw [parseElements] at h
      cases hv : parseValue fuel cs with
      | none => rw [hv] at h; simp at h
      | some q =>
        obtain ⟨v', cs1⟩ := q
        rw [hv] at h
        simp only at h
        obtain ⟨hlv, hfv⟩ := ihV _ _ _ hv
        have hsl1 := skipSpace_length cs1
        split at h
        · rename_i cs2 heq
          rw [heq] at hsl1
          simp only [List.length_cons] at hsl1
          obtain ⟨hle, hfe⟩ := ihE _ _ _ _ h
          refine ⟨by omega, ?_⟩
          intro m hm
          obtain ⟨m', rfl⟩ : ∃ m', m = m' + 1 := ⟨m - 1, by omega⟩
          rw [parseElements]
          simp only [hfv m' (by omega), heq]
          exact hfe m' (by omega)
        · rename_i cs2 heq
          rw [heq] at hsl1
          simp only [List.length_cons] at hsl1
          simp only [Option.some.injEq, Prod.mk.injEq] at h
          obtain ⟨hv', hr⟩ := h
          subst hr
          refine ⟨by omega, ?_⟩
          intro m hm
          obtain ⟨m', rfl⟩ : ∃ m', m = m' + 1 := ⟨m - 1, by omega⟩
          rw [parseElements]
          simp only [hfv m' (by omega), heq, hv']
        · simp at h

/-- Whatever value the decoder reads with some amount of fuel, `readValue` reads too: the
fuel it takes, the length of the content plus one, never runs out before the value ends. -/
theorem readValue_of_fuel (content : List Char) (fuel : Nat) (v : JSON) (rest : List Char)
    (h : parseValue fuel content = some (v, rest)) : readValue content = some (v, rest) := by
  obtain ⟨_, hf⟩ := (parse_fuel fuel).1 content v rest h
  exact hf (content.length + 1) (by omega)

/-! ## First and last characters of a JSON value -/

theorem numStep_accepting (st st' : NumState) (d : Char) (h : numStep st d = some st')
    (ha : numAccepting st' = true) : isDigit d = true := by
  cases st <;> simp only [numStep] at h <;> split_ifs at h <;>
    simp only [Option.some.injEq, reduceCtorEq] at h <;> subst h <;>
    first
      | assumption
      | (exfalso; simp [numAccepting] at ha; done)
      | (subst_vars; decide)

theorem scanNumber_last : ∀ (lit : List Char) (st : NumState),
    scanNumber st lit = some (lit, []) → ∀ c, lit.getLast? = some c → isDigit c = true := by
  intro lit
  induction lit with
  | nil => intro st _ c hc; simp at hc
  | cons d t ih =>
    intro st h c hc
    simp only [scanNumber] at h
    cases hs : numStep st d with
    | none =>
      rw [hs] at h
      simp only at h
      split at h <;> simp at h
    | some st' =>
      rw [hs] at h
      simp only at h
      cases hr : scanNumber st' t with
      | none => rw [hr] at h; simp at h
      | some r =>
        obtain ⟨l, r'⟩ := r
        rw [hr] at h
        simp only [Option.some.injEq, Prod.mk.injEq, List.cons.injEq, true_and] at h
        obtain ⟨rfl, rfl⟩ := h
        cases l with
        | nil =>
          simp only [List.getLast?_singleton, Option.some.injEq] at hc
          subst hc
          have ha : numAccepting st' = true := by
            simp only [scanNumber] at hr
            split at hr
            · assumption
            · simp at hr
          exact numStep_accepting st st' d hs ha
        | cons a l' =>
          rw [List.getLast?_cons_cons] at hc
          exact ih st' hr c hc

theorem getLast?_append_singleton (l : List Char) (c : Char) : (l ++ [c]).getLast? = some c := by
  simp

/-- A JSON value is not empty and ends in a character of `endsValue`. -/
theorem jsonValue_last (v : List Char) (hv : JSONValue v) :
    ∃ c, v.getLast? = some c ∧ endsValue c = true := by
  cases hv with
  | null => exact ⟨'l', rfl, by decide⟩
  | true => exact ⟨'e', rfl, by decide⟩
  | false => exact ⟨'e', rfl, by decide⟩
  | number _ h =>
    obtain ⟨d, t, rfl, _⟩ := number_head v h
    cases hl : (d :: t).getLast? with
    | none => simp at hl
    | some c =>
      refine ⟨c, rfl, ?_⟩
      have := scanNumber_last _ _ h c hl
      simp [endsValue, this]
  | string body _ =>
    refine ⟨'"', ?_, by decide⟩
    rw [← List.cons_append]; exact getLast?_append_singleton _ _
  | emptyArray w _ =>
    refine ⟨']', ?_, by decide⟩
    rw [← List.cons_append]; exact getLast?_append_singleton _ _
  | array es _ =>
    refine ⟨']', ?_, by decide⟩
    rw [← List.cons_append]; exact getLast?_append_singleton _ _
  | emptyObject w _ =>
    refine ⟨'}', ?_, by decide⟩
    rw [← List.cons_append]; exact getLast?_append_singleton _ _
  | object ms _ =>
    refine ⟨'}', ?_, by decide⟩
    rw [← List.cons_append]; exact getLast?_append_singleton _ _

/-- A JSON text ends in white space or in a character of `endsValue`. -/
theorem jsonText_last (content : List Char) (h : JSONText content) :
    ∃ c, content.getLast? = some c ∧ (endsValue c = true ∨ isSpace c = true) := by
  obtain ⟨w1, v, w2, _, hv, hw2, rfl⟩ := h
  obtain ⟨c, hc, hce⟩ := jsonValue_last v hv
  have hvne : v ≠ [] := by rintro rfl; simp at hc
  cases hl : w2.getLast? with
  | none =>
    have : w2 = [] := by simpa using hl
    subst this
    refine ⟨c, ?_, Or.inl hce⟩
    rw [List.append_nil, List.getLast?_append_of_ne_nil _ hvne, hc]
  | some d =>
    have hne : w2 ≠ [] := by rintro rfl; simp at hl
    refine ⟨d, ?_, Or.inr (hw2 d (List.mem_of_getLast?_eq_some hl))⟩
    rw [← List.append_assoc, List.getLast?_append_of_ne_nil _ hne, hl]

/-- A JSON value starts with a character of `startsValue`. -/
theorem jsonValue_head (v : List Char) (hv : JSONValue v) :
    ∃ c t, v = c :: t ∧ startsValue c = true := by
  cases hv with
  | null => exact ⟨'n', _, rfl, by decide⟩
  | true => exact ⟨'t', _, rfl, by decide⟩
  | false => exact ⟨'f', _, rfl, by decide⟩
  | number _ h =>
    obtain ⟨d, t, rfl, hd⟩ := number_head v h
    refine ⟨d, t, rfl, ?_⟩
    simp only [startsValue, Bool.or_eq_true]
    right
    cases hn : numStep .start d with
    | none => exact absurd hn hd
    | some _ => rfl
  | string body _ => exact ⟨'"', _, rfl, by decide⟩
  | emptyArray w _ => exact ⟨'[', _, rfl, by decide⟩
  | array es _ => exact ⟨'[', _, rfl, by decide⟩
  | emptyObject w _ => exact ⟨'{', _, rfl, by decide⟩
  | object ms _ => exact ⟨'{', _, rfl, by decide⟩

theorem startsValue_not_space (c : Char) (h : startsValue c = true) : isSpace c = false := by
  by_contra hs
  simp only [Bool.not_eq_false] at hs
  simp only [isSpace, Bool.or_eq_true, decide_eq_true_eq] at hs
  rcases hs with ((rfl | rfl) | rfl) | rfl <;> exact absurd h (by decide)

theorem skipSpace_allSpace_append (w : List Char) (hw : AllSpace w) (c : Char) (t : List Char)
    (hc : isSpace c = false) : skipSpace (w ++ c :: t) = c :: t := by
  induction w with
  | nil => exact skipSpace_of_not_space c t hc
  | cons d w' ih =>
    rw [List.cons_append, skipSpace_of_space _ _ (hw d (List.mem_cons_self _ _))]
    exact ih (fun x hx => hw x (List.mem_cons_of_mem _ hx))

/-- A content that begins with a JSON value has, after its leading white space, a character
of `startsValue`. -/
theorem beginsWithJSONValue_head (content : List Char) (h : BeginsWithJSONValue content) :
    ∃ c t, skipSpace content = c :: t ∧ startsValue c = true := by
  obtain ⟨w, v, rest, hw, hv, rfl⟩ := h
  obtain ⟨c, t, rfl, hc⟩ := jsonValue_head v hv
  exact ⟨c, t ++ rest, by
    rw [List.cons_append]
    exact skipSpace_allSpace_append w hw c _ (startsValue_not_space c hc), hc⟩

/-- What `readValue` accepts begins with a JSON value. -/
theorem readValue_sound (content : List Char) (v : JSON) (rest : List Char)
    (h : readValue content = some (v, rest)) : BeginsWithJSONValue content := by
  obtain ⟨w, t, hw, ht, e⟩ := (parse_sound (content.length + 1)).1 content v rest h
  exact ⟨w, t, rest, hw, ht, e⟩

/-- C7, refuted as stated: `{"LowH": 5} oops` is not a JSON text, and `loadParams` on it
returns `Params` with a `nil` error, because `Decode` stops reading after the first value. -/
theorem loadParams_trailing_text_counterexample :
    ¬ JSONText "\x7b\"LowH\": 5\x7d oops".toList
    ∧ loadParams parseDigits (configFS "\x7b\"LowH\": 5\x7d oops") "config.json"
        = (some ⟨5, 0, 0, 179, 255, 255⟩, none) := by
  refine ⟨?_, by decide⟩
  intro h
  obtain ⟨c, hc, hce⟩ := jsonText_last _ h
  have hs : "\x7b\"LowH\": 5\x7d oops".toList.getLast? = some 's' := by decide
  rw [hs] at hc
  simp only [Option.some.injEq] at hc
  subst hc
  rcases hce with h1 | h1 <;> exact absurd h1 (by decide)

/-- C7, amended: `loadParams` on an existing, openable file whose content does not begin,
after optional white space, with a syntactically valid JSON value returns no `Params` and the
decoder's read error. -/
theorem loadParams_invalid_syntax (parseFloat : List Char → Option ℚ) (fs : FileSystem)
    (path : String) (content : List Char)
    (hopen : fs.files path = some content)
    (hbad : ¬ BeginsWithJSONValue content) :
    loadParams parseFloat fs path = (none, some Error.jsonRead) := by
  cases hr : readValue content with
  | none => simp [loadParams, osOpen, hopen, decode, hr]
  | some q =>
    obtain ⟨v, rest⟩ := q
    exact absurd (readValue_sound content v rest hr) hbad

/-- Witness of `loadParams_invalid_syntax`: a config file holding `LowH = 5`. -/
theorem loadParams_invalid_syntax_witness :
    loadParams parseDigits (configFS "LowH = 5") "config.json" = (none, some Error.jsonRead) :=
  loadParams_invalid_syntax parseDigits (configFS "LowH = 5") "config.json" "LowH = 5".toList rfl
    (fun h => by
      obtain ⟨c, t, hc, hs⟩ := beginsWithJSONValue_head _ h
      have e : skipSpace "LowH = 5".toList = 'L' :: "owH = 5".toList := by decide
      rw [e] at hc
      simp only [List.cons.injEq] at hc
      rw [← hc.1] at hs
      exact absurd hs (by decide))

/-- Witness of `findBall_found_iff_mass`: an 8×5 frame of one colour under the widest
bounds. -/
theorem findBall_found_iff_mass_witness :
    ((FindBall sampleConv (uniformFrame 8 5 ⟨10, 20, 30⟩) widestParams).1.Found = true
        ↔ 10000 < (moments (thresholdedMask sampleConv (uniformFrame 8 5 ⟨10, 20, 30⟩)
            widestParams)).m00)
    ∧ (FindBall sampleConv (uniformFrame 8 5 ⟨10, 20, 30⟩) widestParams).2 = none :=
  ⟨(findBall_found_iff_mass sampleConv (uniformFrame 8 5 ⟨10, 20, 30⟩) widestParams).1,
   (findBall_found_iff_mass sampleConv (uniformFrame 8 5 ⟨10, 20, 30⟩) widestParams).2.2.2.2⟩

end PPTracker
